import Mathlib

/-!
Shallow embedding of the naming core of the `renamer` repository
(src/core/naming-validator.ts, src/core/suggestion-engine.ts,
src/core/ast-analyzer.ts, src/core/code-validator.ts), together with
theorems settling the specification claims.

Strings are modelled as `List Char`; the ASCII fragments of the
JavaScript regexes and of `toLowerCase`/`toUpperCase` are modelled
exactly (the identifiers the tool manipulates are ASCII).
-/

namespace Renamer

/-! ### Character classes (ASCII, as used by the source regexes) -/

def isLowerA (c : Char) : Bool := 97 ≤ c.toNat && c.toNat ≤ 122

def isUpperA (c : Char) : Bool := 65 ≤ c.toNat && c.toNat ≤ 90

def isDigitA (c : Char) : Bool := 48 ≤ c.toNat && c.toNat ≤ 57

/-- JavaScript `\s` (ASCII part): space, tab, newline, vertical tab,
form feed, carriage return. -/
def isWsC (c : Char) : Bool :=
  c = ' ' || c = '\t' || c = '\n' || c.toNat = 11 || c.toNat = 12 || c = '\r'

/-- The separator class `[-_\s]` used by the converters. -/
def isSepC (c : Char) : Bool := c = '_' || c = '-' || isWsC c

/-- ASCII `toLowerCase` on a single character. -/
def toLowerC (c : Char) : Char :=
  if isUpperA c then Char.ofNat (c.toNat + 32) else c

/-- ASCII `toUpperCase` on a single character. -/
def toUpperC (c : Char) : Char :=
  if isLowerA c then Char.ofNat (c.toNat - 32) else c

def lowerW (w : List Char) : List Char := w.map toLowerC

def upperW (w : List Char) : List Char := w.map toUpperC

/-! ### The five conventions and their membership patterns
(`NamingValidator.CONVENTION_PATTERNS`, naming-validator.ts lines 4-10) -/

inductive Convention where
  | camelCase
  | snakeCase
  | kebabCase
  | pascalCase
  | upperSnakeCase
deriving DecidableEq, Repr

open Convention

/-- Membership test of a full string against a convention pattern:
`camelCase : ^[a-z][a-zA-Z0-9]*$`, `snake_case : ^[a-z][a-z0-9_]*$`,
`kebab-case : ^[a-z][a-z0-9-]*$`, `PascalCase : ^[A-Z][a-zA-Z0-9]*$`,
`UPPER_SNAKE_CASE : ^[A-Z][A-Z0-9_]*$`. -/
def matchesConvention (name : List Char) (conv : Convention) : Bool :=
  match name with
  | [] => false
  | c :: t =>
    match conv with
    | camelCase => isLowerA c && t.all (fun d => isLowerA d || isUpperA d || isDigitA d)
    | snakeCase => isLowerA c && t.all (fun d => isLowerA d || isDigitA d || d = '_')
    | kebabCase => isLowerA c && t.all (fun d => isLowerA d || isDigitA d || d = '-')
    | pascalCase => isUpperA c && t.all (fun d => isLowerA d || isUpperA d || isDigitA d)
    | upperSnakeCase => isUpperA c && t.all (fun d => isUpperA d || isDigitA d || d = '_')

/-! ### Word segmenter (`NamingValidator.extractWords`, lines 99-105) -/

/-- `.replace(/([a-z])([A-Z])/g, '$1 $2')`: insert a space between every
lowercase letter immediately followed by an uppercase letter. -/
def camelSplit : List Char → List Char
  | [] => []
  | [c] => [c]
  | c1 :: c2 :: rest =>
    if isLowerA c1 && isUpperA c2 then c1 :: ' ' :: camelSplit (c2 :: rest)
    else c1 :: camelSplit (c2 :: rest)

/-- `.replace(/[_-]/g, ' ')`. -/
def dashToSpace (c : Char) : Char := if c = '_' || c = '-' then ' ' else c

/-- Prepend a character to the first (open) word of a word list. -/
def consHead (c : Char) : List (List Char) → List (List Char)
  | [] => [[c]]
  | w :: ws => (c :: w) :: ws

mutual

/-- `.split(/\s+/)` followed by `.filter(word => word.length > 0)`:
split at whitespace runs, dropping empty tokens.  `splitWsL` scans
between tokens, `splitWsInWord` scans with a token open. -/
def splitWsL : List Char → List (List Char)
  | [] => []
  | c :: rest =>
    if isWsC c then splitWsL rest
    else consHead c (splitWsInWord rest)

/-- Continuation of `splitWsL` inside a token: the head of the result is
the remainder of the open token. -/
def splitWsInWord : List Char → List (List Char)
  | [] => [[]]
  | c :: rest =>
    if isWsC c then [] :: splitWsL rest
    else consHead c (splitWsInWord rest)

end

def extractWords (name : List Char) : List (List Char) :=
  splitWsL ((camelSplit name).map dashToSpace)

/-- No lowercase letter immediately followed by an uppercase letter
(so the camel-boundary replace is the identity). -/
def noCamelPair : List Char → Bool
  | [] => true
  | [_] => true
  | c1 :: c2 :: rest => !(isLowerA c1 && isUpperA c2) && noCamelPair (c2 :: rest)

def headIsUpper : List Char → Bool
  | [] => false
  | c :: _ => isUpperA c

def lastIsLower : List Char → Bool
  | [] => false
  | [c] => isLowerA c
  | _ :: c :: rest => lastIsLower (c :: rest)

/-- ASCII letters. -/
def isAlphaA (c : Char) : Bool := isLowerA c || isUpperA c

/-! ### Base name / extension (`getBaseName`, `getExtension`, lines 89-97) -/

/-- Index of the last `'.'`, as `String.lastIndexOf` (as an `Option`). -/
def lastDot : List Char → Option Nat
  | [] => none
  | c :: t =>
    match lastDot t with
    | some i => some (i + 1)
    | none => if c = '.' then some 0 else none

/-- `lastDotIndex > 0 ? filename.substring(0, lastDotIndex) : filename`. -/
def getBaseName (filename : List Char) : List Char :=
  match lastDot filename with
  | some i => if 0 < i then filename.take i else filename
  | none => filename

/-- `lastDotIndex > 0 ? filename.substring(lastDotIndex) : ''`. -/
def getExtension (filename : List Char) : List Char :=
  match lastDot filename with
  | some i => if 0 < i then filename.drop i else []
  | none => []

/-! ### Join and convert (`NamingValidator.convertToConvention`, lines 43-61) -/

/-- `capitalize(word) = word.charAt(0).toUpperCase() + word.slice(1).toLowerCase()`. -/
def capitalize : List Char → List Char
  | [] => []
  | c :: t => toUpperC c :: lowerW t

/-- Join a word sequence under a convention, exactly as the `switch` in
`convertToConvention`.  For `camelCase` on an empty word list the
JavaScript expression `words[0]?.toLowerCase() + ...` evaluates to the
string `"undefined"` (undefined coerced by `+`), which is modelled
faithfully here. -/
def joinWords (ws : List (List Char)) (conv : Convention) : List Char :=
  match conv with
  | camelCase =>
    match ws with
    | [] => "undefined".data
    | w :: rest => lowerW w ++ (rest.map capitalize).flatten
  | snakeCase => List.intercalate ['_'] (ws.map lowerW)
  | kebabCase => List.intercalate ['-'] (ws.map lowerW)
  | pascalCase => (ws.map capitalize).flatten
  | upperSnakeCase => List.intercalate ['_'] (ws.map upperW)

/-- `NamingValidator.convertToConvention` (strips the extension, segments,
joins). -/
def convertToConvention (name : List Char) (conv : Convention) : List Char :=
  joinWords (extractWords (getBaseName name)) conv

/-! ### `NamingValidator.validateName` (lines 12-41)
The human-readable `message` field of the source record is a display
string only and is not modelled. -/

structure ValidationResult where
  isValid : Bool
  expectedName : Option (List Char)
  convention : Convention
deriving DecidableEq, Repr

def validateName (name : List Char) (convention : Convention)
    (exceptions : List (List Char)) : ValidationResult :=
  let baseName := getBaseName name
  if exceptions.contains (lowerW baseName) then
    ⟨true, none, convention⟩
  else if matchesConvention baseName convention then
    ⟨true, none, convention⟩
  else
    ⟨false, some (convertToConvention baseName convention ++ getExtension name),
      convention⟩

/-! ### `NamingValidator.detectConvention` (lines 63-87) -/

/-- The `Object.entries` order of `CONVENTION_PATTERNS`, which is also
the tie-breaking order. -/
def conventionOrder : List Convention :=
  [camelCase, snakeCase, kebabCase, pascalCase, upperSnakeCase]

/-- Per-convention score: number of names whose base name matches. -/
def detectScore (names : List (List Char)) (conv : Convention) : Nat :=
  names.countP (fun n => matchesConvention (getBaseName n) conv)

def detectConvention (names : List (List Char)) : Option Convention :=
  let maxScore := (conventionOrder.map (detectScore names)).foldr Nat.max 0
  if maxScore = 0 then none
  else conventionOrder.find? (fun c => detectScore names c = maxScore)

/-! ### `SuggestionEngine` (suggestName / calculateConfidence)
Confidence values (`0.5`, `0.3`, `0.2`, cap at `1.0`) are modelled as
rationals; every value the claims touch is the exact literal `1.0`. -/

structure SuggestionResult where
  original : List Char
  suggested : List Char
  convention : Convention
  confidence : ℚ
deriving DecidableEq, Repr

def calculateConfidence (original suggested : List Char)
    (convention : Convention) : ℚ :=
  if original = suggested then 1
  else
    let words1 := extractWords (getBaseName original)
    let words2 := extractWords (getBaseName suggested)
    let c1 : ℚ :=
      if lowerW words1.flatten = lowerW words2.flatten then 1/2 + 3/10 else 1/2
    let c2 : ℚ :=
      if matchesConvention (getBaseName suggested) convention then c1 + 1/5 else c1
    min c2 1

/-- `SuggestionEngine.suggestName`.  `path.extname` agrees with
`getExtension` on slash-free filenames. -/
def suggestName (filename : List Char) (convention : Convention)
    (exceptions : List (List Char)) : SuggestionResult :=
  let baseName := getBaseName filename
  let extension := getExtension filename
  if exceptions.contains (lowerW baseName) then
    ⟨filename, filename, convention, 1⟩
  else
    let suggestedFilename := convertToConvention baseName convention ++ extension
    ⟨filename, suggestedFilename, convention,
      calculateConfidence filename suggestedFilename convention⟩

/-! ### `CodeValidator` string converters (code-validator source, lines 31-82) -/

mutual

/-- `.replace(/[-_\s]+(.)?/g, (_, char) => char ? char.toUpperCase() : '')`:
every maximal separator run together with the following character (if
any) is replaced by that character uppercased. -/
def replaceSeps : List Char → List Char
  | [] => []
  | c :: rest =>
    if isSepC c then skipSepsUpper rest else c :: replaceSeps rest

/-- Continuation of `replaceSeps` inside a separator run. -/
def skipSepsUpper : List Char → List Char
  | [] => []
  | c :: rest =>
    if isSepC c then skipSepsUpper rest else toUpperC c :: replaceSeps rest

end

/-- `.replace(/^[A-Z]/, char => char.toLowerCase())`. -/
def lowerFirst : List Char → List Char
  | [] => []
  | c :: t => if isUpperA c then toLowerC c :: t else c :: t

/-- `.replace(/^[a-z]/, char => char.toUpperCase())`. -/
def upperFirst : List Char → List Char
  | [] => []
  | c :: t => if isLowerA c then toUpperC c :: t else c :: t

def convertToCamelCase (name : List Char) : List Char :=
  lowerFirst (replaceSeps name)

def convertToPascalCase (name : List Char) : List Char :=
  upperFirst (replaceSeps name)

/-- `.replace(/([A-Z])/g, '_$1')` (and the `-` analogue). -/
def insertBeforeUpper (r : Char) (l : List Char) : List Char :=
  (l.map (fun c => if isUpperA c then [r, c] else [c])).flatten

def isDashWs (c : Char) : Bool := c = '-' || isWsC c

def isUndWs (c : Char) : Bool := c = '_' || isWsC c

mutual

/-- `.replace(/CLASS+/g, r)`: each maximal run of characters in the
class `p` becomes the single character `r`. -/
def collapseRuns (p : Char → Bool) (r : Char) : List Char → List Char
  | [] => []
  | c :: rest =>
    if p c then r :: skipRun p r rest else c :: collapseRuns p r rest

/-- Continuation of `collapseRuns` inside a run. -/
def skipRun (p : Char → Bool) (r : Char) : List Char → List Char
  | [] => []
  | c :: rest =>
    if p c then skipRun p r rest else c :: collapseRuns p r rest

end

/-- `.replace(/^X/, '')` for a single anchored character. -/
def stripLeading (r : Char) : List Char → List Char
  | [] => []
  | c :: t => if c = r then t else c :: t

def convertToSnakeCase (name : List Char) : List Char :=
  lowerW (stripLeading '_' (collapseRuns isDashWs '_' (insertBeforeUpper '_' name)))

def convertToKebabCase (name : List Char) : List Char :=
  lowerW (stripLeading '-' (collapseRuns isUndWs '-' (insertBeforeUpper '-' name)))

def convertToConstantCase (name : List Char) : List Char :=
  upperW (stripLeading '_' (collapseRuns isDashWs '_' (insertBeforeUpper '_' name)))

/-- `CodeValidator.convertToConvention` (lines 67-82). -/
def codeConvertToConvention (name : List Char) (conv : Convention) : List Char :=
  match conv with
  | camelCase => convertToCamelCase name
  | pascalCase => convertToPascalCase name
  | snakeCase => convertToSnakeCase name
  | kebabCase => convertToKebabCase name
  | upperSnakeCase => convertToConstantCase name

/-- `CodeValidator.validateConvention` (lines 84-99): the same five
anchored regexes as `CONVENTION_PATTERNS`. -/
def codeValidateConvention (name : List Char) (conv : Convention) : Bool :=
  match name with
  | [] => false
  | c :: t =>
    match conv with
    | camelCase => isLowerA c && t.all (fun d => isLowerA d || isUpperA d || isDigitA d)
    | pascalCase => isUpperA c && t.all (fun d => isLowerA d || isUpperA d || isDigitA d)
    | snakeCase => isLowerA c && t.all (fun d => isLowerA d || isDigitA d || d = '_')
    | kebabCase => isLowerA c && t.all (fun d => isLowerA d || isDigitA d || d = '-')
    | upperSnakeCase => isUpperA c && t.all (fun d => isUpperA d || isDigitA d || d = '_')

/-! ### Identifier records and the code validator proper -/

/-- `CodeIdentifier.type` labels.  The source uses string literals;
`categoryLabel` below recovers them.  (`scope` is the constant
`'global'` at every push site of the source and is not modelled.) -/
inductive IdCategory where
  | varDecl
  | funcDecl
  | classDecl
  | constDecl
  | interfaceDecl
  | typeAliasDecl
  | enumDecl
deriving DecidableEq, Repr

open IdCategory

def categoryLabel : IdCategory → List Char
  | varDecl => "variable".data
  | funcDecl => "function".data
  | classDecl => "class".data
  | constDecl => "constant".data
  | interfaceDecl => "interface".data
  | typeAliasDecl => "type".data
  | enumDecl => "enum".data

/-- `CodeIdentifier` (ast-analyzer.ts lines 4-13).  The optional
`isReactComponent` field is `Bool` with `false` for the source's
`undefined` (both are falsy at every use site). -/
structure CodeIdentifier where
  name : List Char
  type : IdCategory
  line : Nat
  column : Nat
  filePath : List Char
  isExported : Bool
  isReactComponent : Bool
deriving DecidableEq, Repr

/-- `CodeConventionConfig` (code-validator source, lines 4-13).  The
source field names (`variables`, `functions`, ...) are kept with a `C`
suffix because `variables` is a reserved word in Lean. -/
structure CodeConventionConfig where
  variablesC : Convention
  functionsC : Convention
  componentsC : Convention
  constantsC : Convention
  classesC : Convention
  interfacesC : Convention
  typesC : Convention
  enumsC : Convention
deriving DecidableEq, Repr

/-- `CodeValidator.getExpectedConvention` (lines 101-125). -/
def getExpectedConvention (identifier : CodeIdentifier)
    (config : CodeConventionConfig) : Convention :=
  if identifier.isReactComponent then pascalCase
  else
    match identifier.type with
    | varDecl => config.variablesC
    | funcDecl => config.functionsC
    | classDecl => config.classesC
    | constDecl => config.constantsC
    | interfaceDecl => config.interfacesC
    | typeAliasDecl => config.typesC
    | enumDecl => config.enumsC

def conventionName : Convention → List Char
  | camelCase => "camelCase".data
  | snakeCase => "snake_case".data
  | kebabCase => "kebab-case".data
  | pascalCase => "PascalCase".data
  | upperSnakeCase => "UPPER_SNAKE_CASE".data

/-- The violation message template (lines 137-141). -/
def mkViolation (identifier : CodeIdentifier) (expected : Convention) : List Char :=
  if identifier.isReactComponent then
    "React component \"".data ++ identifier.name ++
      "\" should use PascalCase".data
  else
    categoryLabel identifier.type ++ " \"".data ++ identifier.name ++
      "\" should use ".data ++ conventionName expected

structure CodeValidationResult where
  identifier : CodeIdentifier
  isValid : Bool
  expectedConvention : Convention
  suggestedName : Option (List Char)
  violation : List Char
deriving DecidableEq, Repr

/-- `CodeValidator.validateIdentifier` (lines 127-151). -/
def validateIdentifier (identifier : CodeIdentifier)
    (config : CodeConventionConfig) : CodeValidationResult :=
  let expectedConvention := getExpectedConvention identifier config
  if codeValidateConvention identifier.name expectedConvention then
    ⟨identifier, true, expectedConvention, none, []⟩
  else
    ⟨identifier, false, expectedConvention,
      some (codeConvertToConvention identifier.name expectedConvention),
      mkViolation identifier expectedConvention⟩

/-- The histogram key (line 163): `'React Components'` for
component-like identifiers, the `type` label otherwise. -/
def histKey (identifier : CodeIdentifier) : List Char :=
  if identifier.isReactComponent then "React Components".data
  else categoryLabel identifier.type

/-- `violationsByType[key] = (violationsByType[key] || 0) + 1` on a
JavaScript object: update in place, or append a fresh key. -/
def bumpKey : List (List Char × Nat) → List Char → List (List Char × Nat)
  | [], k => [(k, 1)]
  | (k', v) :: t, k =>
    if k' = k then (k', v + 1) :: t else (k', v) :: bumpKey t k

structure CodeValidationSummary where
  totalChecked : Nat
  totalViolations : Nat
  violationsByType : List (List Char × Nat)
  violations : List CodeValidationResult
deriving DecidableEq, Repr

/-- The loop body of `validateIdentifiers` (lines 157-166). -/
def validateLoop (config : CodeConventionConfig)
    (acc : List CodeValidationResult × List (List Char × Nat)) :
    List CodeIdentifier → List CodeValidationResult × List (List Char × Nat)
  | [] => acc
  | i :: t =>
    let result := validateIdentifier i config
    if result.isValid then validateLoop config acc t
    else validateLoop config (acc.1 ++ [result], bumpKey acc.2 (histKey i)) t

/-- `CodeValidator.validateIdentifiers` (lines 153-174). -/
def validateIdentifiers (identifiers : List CodeIdentifier)
    (config : CodeConventionConfig) : CodeValidationSummary :=
  let p := validateLoop config ([], []) identifiers
  ⟨identifiers.length, p.1.length, p.2, p.1⟩

/-- Association lookup in the histogram. -/
def lookupKey : List (List Char × Nat) → List Char → Option Nat
  | [], _ => none
  | (k', v) :: t, k => if k' = k then some v else lookupKey t k

/-! ### The syntax-tree model and `ASTAnalyzer`
The Babel tree is duck-typed; the model keeps, per node kind, the
fields the analyzer reads (`type`, `id.name`, `loc`, `declarations`,
`declaration`, `init`) and collapses all remaining structural child
nodes into an ordered `children` list (the generic field recursion of
`extractIdentifiersFromNode`, lines 169-184, visits exactly those). -/

structure SourceLoc where
  line : Nat
  column : Nat
deriving DecidableEq, Repr

mutual

inductive BabelNode where
  | variableDeclaration (decls : List Declarator)
  | functionDeclaration (id : Option (List Char)) (loc : Option SourceLoc)
      (children : List BabelNode)
  | classDeclaration (id : Option (List Char)) (loc : Option SourceLoc)
      (children : List BabelNode)
  | tsInterfaceDeclaration (id : Option (List Char)) (loc : Option SourceLoc)
      (children : List BabelNode)
  | tsTypeAliasDeclaration (id : Option (List Char)) (loc : Option SourceLoc)
      (children : List BabelNode)
  | tsEnumDeclaration (id : Option (List Char)) (loc : Option SourceLoc)
      (children : List BabelNode)
  | exportNamedDeclaration (declaration : Option BabelNode)
      (children : List BabelNode)
  | exportDefaultDeclaration (declaration : Option BabelNode)
      (children : List BabelNode)
  | arrowFunctionExpression (children : List BabelNode)
  | functionExpression (children : List BabelNode)
  | otherNode (children : List BabelNode)

/-- A `VariableDeclarator`: `id.name`, `loc`, `init`. -/
inductive Declarator where
  | mk (id : Option (List Char)) (loc : Option SourceLoc)
      (init : Option BabelNode)

end

/-- `/^[A-Z]/.test(name)`. -/
def startsUpper (name : List Char) : Bool :=
  match name with
  | [] => false
  | c :: _ => isUpperA c

/-- `ASTAnalyzer.isReactComponent` (lines 37-50): capitalized name and a
function-shaped node. -/
def isReactComponent (name : List Char) (node : Option BabelNode) : Bool :=
  if !startsUpper name then false
  else
    match node with
    | none => false
    | some (.arrowFunctionExpression _) => true
    | some (.functionExpression _) => true
    | some (.functionDeclaration _ _ _) => true
    | some _ => false

/-- `ASTAnalyzer.isConstant` (lines 52-54): `/^[A-Z][A-Z0-9_]*$/`. -/
def isConstantName (name : List Char) : Bool :=
  match name with
  | [] => false
  | c :: t => isUpperA c && t.all (fun d => isUpperA d || isDigitA d || d = '_')

/-- `declarator.loc?.start?.line || 0` (and column). -/
def locLine : Option SourceLoc → Nat
  | some l => l.line
  | none => 0

def locCol : Option SourceLoc → Nat
  | some l => l.column
  | none => 0

/-- The push for one variable declarator (lines 61-77), with
`isExported` as computed at the push site (`checkIfExported` is the
constant `false`, line 186-189). -/
def declaratorIdent (fp : List Char) (exported : Bool) : Declarator → List CodeIdentifier
  | .mk none _ _ => []
  | .mk (some name) loc init =>
    let isConst := isConstantName name
    [{ name := name
       type := if isConst then constDecl else varDecl
       line := locLine loc
       column := locCol loc
       filePath := fp
       isExported := exported
       isReactComponent := if isConst then false else isReactComponent name init }]

mutual

/-- `ASTAnalyzer.extractIdentifiersFromNode` (lines 56-184): the pushes
of each recognized branch, followed by the generic recursion into the
structural children; the export branches delegate to
`extractExportedIds` and return without recursing. -/
def extractIds (fp : List Char) : BabelNode → List CodeIdentifier
  | .variableDeclaration decls =>
    extractDeclPushes fp decls ++ extractDeclInits fp decls
  | .functionDeclaration id loc children =>
    (match id with
     | some name =>
       [{ name := name, type := funcDecl, line := locLine loc,
          column := locCol loc, filePath := fp, isExported := false,
          isReactComponent :=
            isReactComponent name (some (.functionDeclaration id loc children)) }]
     | none => []) ++ extractIdsList fp children
  | .classDeclaration id loc children =>
    (match id with
     | some name =>
       [{ name := name, type := classDecl, line := locLine loc,
          column := locCol loc, filePath := fp, isExported := false,
          isReactComponent := false }]
     | none => []) ++ extractIdsList fp children
  | .tsInterfaceDeclaration id loc children =>
    (match id with
     | some name =>
       [{ name := name, type := interfaceDecl, line := locLine loc,
          column := locCol loc, filePath := fp, isExported := false,
          isReactComponent := false }]
     | none => []) ++ extractIdsList fp children
  | .tsTypeAliasDeclaration id loc children =>
    (match id with
     | some name =>
       [{ name := name, type := typeAliasDecl, line := locLine loc,
          column := locCol loc, filePath := fp, isExported := false,
          isReactComponent := false }]
     | none => []) ++ extractIdsList fp children
  | .tsEnumDeclaration id loc children =>
    (match id with
     | some name =>
       [{ name := name, type := enumDecl, line := locLine loc,
          column := locCol loc, filePath := fp, isExported := false,
          isReactComponent := false }]
     | none => []) ++ extractIdsList fp children
  | .exportNamedDeclaration (some d) _ => extractExportedIds fp true d
  | .exportNamedDeclaration none children => extractIdsList fp children
  | .exportDefaultDeclaration (some d) _ => extractExportedIds fp true d
  | .exportDefaultDeclaration none children => extractIdsList fp children
  | .arrowFunctionExpression children => extractIdsList fp children
  | .functionExpression children => extractIdsList fp children
  | .otherNode children => extractIdsList fp children

def extractIdsList (fp : List Char) : List BabelNode → List CodeIdentifier
  | [] => []
  | n :: t => extractIds fp n ++ extractIdsList fp t

/-- The pushes of the `VariableDeclaration` branch, in declarator order. -/
def extractDeclPushes (fp : List Char) : List Declarator → List CodeIdentifier
  | [] => []
  | d :: t => declaratorIdent fp false d ++ extractDeclPushes fp t

/-- The generic recursion of the `VariableDeclaration` branch: it
descends into each declarator and, there, into its `init` tree. -/
def extractDeclInits (fp : List Char) : List Declarator → List CodeIdentifier
  | [] => []
  | .mk _ _ (some n) :: t => extractIds fp n ++ extractDeclInits fp t
  | .mk _ _ none :: t => extractDeclInits fp t

/-- `ASTAnalyzer.extractExportedIdentifiers` (lines 191-272): only
variable, function, class, interface and type-alias declarations are
handled; every branch returns without further recursion, and every
other node kind (including `TSEnumDeclaration`) yields nothing. -/
def extractExportedIds (fp : List Char) (exported : Bool) :
    BabelNode → List CodeIdentifier
  | .variableDeclaration decls => exportedDeclPushes fp exported decls
  | .functionDeclaration (some name) loc children =>
    [{ name := name, type := funcDecl, line := locLine loc,
       column := locCol loc, filePath := fp, isExported := exported,
       isReactComponent :=
         isReactComponent name (some (.functionDeclaration (some name) loc children)) }]
  | .classDeclaration (some name) loc _ =>
    [{ name := name, type := classDecl, line := locLine loc,
       column := locCol loc, filePath := fp, isExported := exported,
       isReactComponent := false }]
  | .tsInterfaceDeclaration (some name) loc _ =>
    [{ name := name, type := interfaceDecl, line := locLine loc,
       column := locCol loc, filePath := fp, isExported := exported,
       isReactComponent := false }]
  | .tsTypeAliasDeclaration (some name) loc _ =>
    [{ name := name, type := typeAliasDecl, line := locLine loc,
       column := locCol loc, filePath := fp, isExported := exported,
       isReactComponent := false }]
  | _ => []

/-- The declarator pushes of the exported `VariableDeclaration` branch
(lines 195-214). -/
def exportedDeclPushes (fp : List Char) (exported : Bool) :
    List Declarator → List CodeIdentifier
  | [] => []
  | d :: t => declaratorIdent fp exported d ++ exportedDeclPushes fp exported t

end

/-- Lowercase letters and digits: the word alphabet of the agreement
domain of the two converters. -/
def isLowerDigit (c : Char) : Bool := isLowerA c || isDigitA c

/-- `w ++ sep₁ ++ w₁ ++ sep₂ ++ w₂ ++ ...` — a first word followed by
(separator, word) pairs. -/
def mkSimpleName (w : List Char) (rest : List (Char × List Char)) : List Char :=
  w ++ (rest.map (fun q => q.1 :: q.2)).flatten

/-- Uppercase the first character, keep the rest unchanged. -/
def capFirstW : List Char → List Char
  | [] => []
  | c :: t => toUpperC c :: t

/-- Domain hypotheses packaged: every word is a nonempty lower/digit
word and every separator is `'_'` or `'-'`. -/
def simpleNameOk (w : List Char) (rest : List (Char × List Char)) : Prop :=
  (w ≠ [] ∧ ∀ c ∈ w, isLowerDigit c = true) ∧
    ∀ q ∈ rest, (q.1 = '_' ∨ q.1 = '-') ∧ q.2 ≠ [] ∧
      ∀ c ∈ q.2, isLowerDigit c = true

/-- Position of a convention in the fixed priority order. -/
def conventionIdx : Convention → Nat
  | camelCase => 0
  | snakeCase => 1
  | kebabCase => 2
  | pascalCase => 3
  | upperSnakeCase => 4

/-- The per-identifier invariant maintained by the classifier. -/
def IdentInv (i : CodeIdentifier) : Prop :=
  (i.isReactComponent = true →
    (i.type = IdCategory.varDecl ∨ i.type = IdCategory.funcDecl) ∧
      startsUpper i.name = true) ∧
  (i.type = IdCategory.varDecl → isConstantName i.name = false) ∧
  (i.type = IdCategory.constDecl →
    isConstantName i.name = true ∧ i.isReactComponent = false)

mutual

/-- No export wrapper node anywhere in the tree. -/
def exportFreeB : BabelNode → Bool
  | .variableDeclaration decls => exportFreeDecls decls
  | .functionDeclaration _ _ children => exportFreeList children
  | .classDeclaration _ _ children => exportFreeList children
  | .tsInterfaceDeclaration _ _ children => exportFreeList children
  | .tsTypeAliasDeclaration _ _ children => exportFreeList children
  | .tsEnumDeclaration _ _ children => exportFreeList children
  | .exportNamedDeclaration _ _ => false
  | .exportDefaultDeclaration _ _ => false
  | .arrowFunctionExpression children => exportFreeList children
  | .functionExpression children => exportFreeList children
  | .otherNode children => exportFreeList children

def exportFreeList : List BabelNode → Bool
  | [] => true
  | n :: t => exportFreeB n && exportFreeList t

def exportFreeDecls : List Declarator → Bool
  | [] => true
  | .mk _ _ (some n) :: t => exportFreeB n && exportFreeDecls t
  | .mk _ _ none :: t => exportFreeDecls t

end

/-- The identifiers pushed for a declaration node itself (before the
generic recursion into its children), as `extractIdentifiersFromNode`
pushes them: the comparison point for export propagation. -/
def directIdents (fp : List Char) : BabelNode → List CodeIdentifier
  | .variableDeclaration decls => extractDeclPushes fp decls
  | .functionDeclaration (some name) loc children =>
    [{ name := name, type := IdCategory.funcDecl, line := locLine loc,
       column := locCol loc, filePath := fp, isExported := false,
       isReactComponent :=
         isReactComponent name
           (some (.functionDeclaration (some name) loc children)) }]
  | .classDeclaration (some name) loc _ =>
    [{ name := name, type := IdCategory.classDecl, line := locLine loc,
       column := locCol loc, filePath := fp, isExported := false,
       isReactComponent := false }]
  | .tsInterfaceDeclaration (some name) loc _ =>
    [{ name := name, type := IdCategory.interfaceDecl, line := locLine loc,
       column := locCol loc, filePath := fp, isExported := false,
       isReactComponent := false }]
  | .tsTypeAliasDeclaration (some name) loc _ =>
    [{ name := name, type := IdCategory.typeAliasDecl, line := locLine loc,
       column := locCol loc, filePath := fp, isExported := false,
       isReactComponent := false }]
  | .tsEnumDeclaration (some name) loc _ =>
    [{ name := name, type := IdCategory.enumDecl, line := locLine loc,
       column := locCol loc, filePath := fp, isExported := false,
       isReactComponent := false }]
  | _ => []

/-- The five declaration kinds handled by the export helper
(`TSEnumDeclaration` is NOT among them). -/
def isExportHandledKind : BabelNode → Bool
  | .variableDeclaration _ => true
  | .functionDeclaration _ _ _ => true
  | .classDeclaration _ _ _ => true
  | .tsInterfaceDeclaration _ _ _ => true
  | .tsTypeAliasDeclaration _ _ _ => true
  | _ => false


/-- The per-category configuration lookup, as the specification words
it (the non-component branch of `getExpectedConvention`). -/
def configFor (config : CodeConventionConfig) : IdCategory → Convention
  | IdCategory.varDecl => config.variablesC
  | IdCategory.funcDecl => config.functionsC
  | IdCategory.classDecl => config.classesC
  | IdCategory.constDecl => config.constantsC
  | IdCategory.interfaceDecl => config.interfacesC
  | IdCategory.typeAliasDecl => config.typesC
  | IdCategory.enumDecl => config.enumsC

def setExported (b : Bool) (i : CodeIdentifier) : CodeIdentifier :=
  { i with isExported := b }

/- Sanity examples (spec §8 concrete scenarios). -/

example : convertToConvention "user_name".data camelCase = "userName".data := by decide

example : convertToConvention "API_URL".data kebabCase = "api-url".data := by decide

example : convertToConvention "a_b_c".data camelCase = "aBC".data := by decide

example : convertToConvention "aBC".data camelCase = "aBc".data := by decide

example : convertToConvention [] camelCase = "undefined".data := by decide

example : convertToCamelCase "API_URL".data = "aPIURL".data := by decide

example : convertToConvention "API_URL".data camelCase = "apiUrl".data := by decide

example : convertToCamelCase "process_payment".data = "processPayment".data := by decide

example : detectConvention ["fileOne.ts".data, "fileTwo.ts".data, "file-three.ts".data]
    = some camelCase := by decide

/-! ## Character-level lemmas -/

theorem toNatOfNatLetter (n : Nat) (h1 : 65 ≤ n) (h2 : n ≤ 122) :
    (Char.ofNat n).toNat = n := by
  interval_cases n <;> rfl

theorem charEqIffToNat (c d : Char) : c = d ↔ c.toNat = d.toNat := by
  constructor
  · intro h; rw [h]
  · intro h
    exact Char.ofNat_toNat c ▸ Char.ofNat_toNat d ▸ congrArg Char.ofNat h

theorem isUpperAIff (c : Char) : isUpperA c = true ↔ 65 ≤ c.toNat ∧ c.toNat ≤ 90 := by
  simp [isUpperA]

theorem isLowerAIff (c : Char) : isLowerA c = true ↔ 97 ≤ c.toNat ∧ c.toNat ≤ 122 := by
  simp [isLowerA]

theorem isDigitAIff (c : Char) : isDigitA c = true ↔ 48 ≤ c.toNat ∧ c.toNat ≤ 57 := by
  simp [isDigitA]

theorem isWsCIff (c : Char) : isWsC c = true ↔
    c.toNat = 32 ∨ c.toNat = 9 ∨ c.toNat = 10 ∨ c.toNat = 11 ∨
    c.toNat = 12 ∨ c.toNat = 13 := by
  simp only [isWsC, Bool.or_eq_true, decide_eq_true_eq, charEqIffToNat]
  tauto

theorem isSepCIff (c : Char) : isSepC c = true ↔
    c.toNat = 95 ∨ c.toNat = 45 ∨ c.toNat = 32 ∨ c.toNat = 9 ∨
    c.toNat = 10 ∨ c.toNat = 11 ∨ c.toNat = 12 ∨ c.toNat = 13 := by
  simp only [isSepC, Bool.or_eq_true, decide_eq_true_eq, charEqIffToNat, isWsCIff]
  tauto

theorem toLowerCToNat (c : Char) (h : isUpperA c = true) :
    (toLowerC c).toNat = c.toNat + 32 := by
  rw [isUpperAIff] at h
  rw [toLowerC, if_pos (by rw [isUpperAIff]; omega)]
  exact toNatOfNatLetter _ (by omega) (by omega)

theorem toLowerCOfNotUpper (c : Char) (h : isUpperA c = false) : toLowerC c = c := by
  rw [toLowerC, if_neg]
  simp [h]

theorem toUpperCToNat (c : Char) (h : isLowerA c = true) :
    (toUpperC c).toNat = c.toNat - 32 := by
  rw [isLowerAIff] at h
  rw [toUpperC, if_pos (by rw [isLowerAIff]; omega)]
  exact toNatOfNatLetter _ (by omega) (by omega)

theorem toUpperCOfNotLower (c : Char) (h : isLowerA c = false) : toUpperC c = c := by
  rw [toUpperC, if_neg]
  simp [h]

theorem lowerOfUpper (c : Char) (h : isUpperA c = true) :
    isLowerA (toLowerC c) = true := by
  rw [isLowerAIff, toLowerCToNat c h]
  rw [isUpperAIff] at h
  omega

theorem upperOfLower (c : Char) (h : isLowerA c = true) :
    isUpperA (toUpperC c) = true := by
  rw [isUpperAIff, toUpperCToNat c h]
  rw [isLowerAIff] at h
  omega

theorem lowerNotUpper (c : Char) (h : isLowerA c = true) : isUpperA c = false := by
  rw [isLowerAIff] at h
  rcases h' : isUpperA c with _ | _
  · rfl
  · rw [isUpperAIff] at h'; omega

theorem upperNotLower (c : Char) (h : isUpperA c = true) : isLowerA c = false := by
  rw [isUpperAIff] at h
  rcases h' : isLowerA c with _ | _
  · rfl
  · rw [isLowerAIff] at h'; omega

theorem notUpperToLowerC (c : Char) : isUpperA (toLowerC c) = false := by
  rcases h : isUpperA c with _ | _
  · rw [toLowerCOfNotUpper c h]; exact h
  · exact lowerNotUpper _ (lowerOfUpper c h)

theorem notLowerToUpperC (c : Char) : isLowerA (toUpperC c) = false := by
  rcases h : isLowerA c with _ | _
  · rw [toUpperCOfNotLower c h]; exact h
  · exact upperNotLower _ (upperOfLower c h)

theorem toLowerCIdem (c : Char) : toLowerC (toLowerC c) = toLowerC c :=
  toLowerCOfNotUpper _ (notUpperToLowerC c)

theorem toUpperCIdem (c : Char) : toUpperC (toUpperC c) = toUpperC c :=
  toUpperCOfNotLower _ (notLowerToUpperC c)

theorem sepToLowerC (c : Char) : isSepC (toLowerC c) = isSepC c := by
  rcases h : isUpperA c with _ | _
  · rw [toLowerCOfNotUpper c h]
  · have h1 := toLowerCToNat c h
    rw [isUpperAIff] at h
    rcases h2 : isSepC (toLowerC c) with _ | _
    · rcases h3 : isSepC c with _ | _
      · rfl
      · rw [isSepCIff] at h3; omega
    · rw [isSepCIff] at h2; omega

theorem sepToUpperC (c : Char) : isSepC (toUpperC c) = isSepC c := by
  rcases h : isLowerA c with _ | _
  · rw [toUpperCOfNotLower c h]
  · have h1 := toUpperCToNat c h
    rw [isLowerAIff] at h
    rcases h2 : isSepC (toUpperC c) with _ | _
    · rcases h3 : isSepC c with _ | _
      · rfl
      · rw [isSepCIff] at h3; omega
    · rw [isSepCIff] at h2; omega

theorem wsToLowerC (c : Char) : isWsC (toLowerC c) = isWsC c := by
  rcases h : isUpperA c with _ | _
  · rw [toLowerCOfNotUpper c h]
  · have h1 := toLowerCToNat c h
    rw [isUpperAIff] at h
    rcases h2 : isWsC (toLowerC c) with _ | _
    · rcases h3 : isWsC c with _ | _
      · rfl
      · rw [isWsCIff] at h3; omega
    · rw [isWsCIff] at h2; omega

theorem wsToUpperC (c : Char) : isWsC (toUpperC c) = isWsC c := by
  rcases h : isLowerA c with _ | _
  · rw [toUpperCOfNotLower c h]
  · have h1 := toUpperCToNat c h
    rw [isLowerAIff] at h
    rcases h2 : isWsC (toUpperC c) with _ | _
    · rcases h3 : isWsC c with _ | _
      · rfl
      · rw [isWsCIff] at h3; omega
    · rw [isWsCIff] at h2; omega


theorem wsOfSep (c : Char) (h : isSepC c = false) : isWsC c = false := by
  rcases hw : isWsC c with _ | _
  · rfl
  · rw [isSepC, hw] at h
    simp at h

theorem sepNotUnd (c : Char) (h : isSepC c = false) : c ≠ '_' := by
  intro hc
  rw [hc] at h
  exact absurd h (by decide)

theorem sepNotDash (c : Char) (h : isSepC c = false) : c ≠ '-' := by
  intro hc
  rw [hc] at h
  exact absurd h (by decide)

theorem alphaNotSep (c : Char) (h : isAlphaA c = true) : isSepC c = false := by
  simp only [isAlphaA, Bool.or_eq_true] at h
  rcases h2 : isSepC c with _ | _
  · rfl
  · rw [isSepCIff] at h2
    rcases h with h | h
    · rw [isLowerAIff] at h; omega
    · rw [isUpperAIff] at h; omega

theorem alphaNotWs (c : Char) (h : isAlphaA c = true) : isWsC c = false := by
  simp only [isAlphaA, Bool.or_eq_true] at h
  rcases h2 : isWsC c with _ | _
  · rfl
  · rw [isWsCIff] at h2
    rcases h with h | h
    · rw [isLowerAIff] at h; omega
    · rw [isUpperAIff] at h; omega

theorem alphaNotDot (c : Char) (h : isAlphaA c = true) : c ≠ '.' := by
  intro hc
  subst hc
  simp only [isAlphaA, Bool.or_eq_true] at h
  rcases h with h | h
  · rw [isLowerAIff] at h; revert h; decide
  · rw [isUpperAIff] at h; revert h; decide

theorem lowerToLowerCAlpha (c : Char) (h : isAlphaA c = true) :
    isLowerA (toLowerC c) = true := by
  simp only [isAlphaA, Bool.or_eq_true] at h
  rcases h with h | h
  · rw [toLowerCOfNotUpper c (lowerNotUpper c h)]; exact h
  · exact lowerOfUpper c h

theorem upperToUpperCAlpha (c : Char) (h : isAlphaA c = true) :
    isUpperA (toUpperC c) = true := by
  simp only [isAlphaA, Bool.or_eq_true] at h
  rcases h with h | h
  · exact upperOfLower c h
  · rw [toUpperCOfNotLower c (upperNotLower c h)]; exact h

theorem alphaToLowerC (c : Char) (h : isAlphaA c = true) :
    isAlphaA (toLowerC c) = true := by
  simp only [isAlphaA, Bool.or_eq_true]
  exact Or.inl (lowerToLowerCAlpha c h)

theorem alphaToUpperC (c : Char) (h : isAlphaA c = true) :
    isAlphaA (toUpperC c) = true := by
  simp only [isAlphaA, Bool.or_eq_true]
  exact Or.inr (upperToUpperCAlpha c h)

theorem dotToLowerC (c : Char) (h : toLowerC c = '.') : c = '.' := by
  rcases hu : isUpperA c with _ | _
  · rw [toLowerCOfNotUpper c hu] at h; exact h
  · exfalso
    have h1 := toLowerCToNat c hu
    rw [isUpperAIff] at hu
    rw [charEqIffToNat] at h
    have h2 : ('.' : Char).toNat = 46 := rfl
    omega

/-! ## Word-level lemmas -/

theorem lowerWIdem (w : List Char) : lowerW (lowerW w) = lowerW w := by
  induction w with
  | nil => rfl
  | cons c t ih =>
    simp only [lowerW, List.map_cons] at ih ⊢
    rw [toLowerCIdem, ih]

theorem upperWIdem (w : List Char) : upperW (upperW w) = upperW w := by
  induction w with
  | nil => rfl
  | cons c t ih =>
    simp only [upperW, List.map_cons] at ih ⊢
    rw [toUpperCIdem, ih]

theorem capIdem (w : List Char) : capitalize (capitalize w) = capitalize w := by
  cases w with
  | nil => rfl
  | cons c t =>
    simp only [capitalize]
    rw [toUpperCIdem, lowerWIdem]

theorem lowerWNeNil (w : List Char) (h : w ≠ []) : lowerW w ≠ [] := by
  cases w with
  | nil => exact absurd rfl h
  | cons c t => simp [lowerW]

theorem upperWNeNil (w : List Char) (h : w ≠ []) : upperW w ≠ [] := by
  cases w with
  | nil => exact absurd rfl h
  | cons c t => simp [upperW]

theorem capNeNil (w : List Char) (h : w ≠ []) : capitalize w ≠ [] := by
  cases w with
  | nil => exact absurd rfl h
  | cons c t => simp [capitalize]

theorem lowerWNoUpper (w : List Char) : ∀ c ∈ lowerW w, isUpperA c = false := by
  intro c hc
  rw [lowerW, List.mem_map] at hc
  obtain ⟨d, _, rfl⟩ := hc
  exact notUpperToLowerC d

theorem upperWNoLower (w : List Char) : ∀ c ∈ upperW w, isLowerA c = false := by
  intro c hc
  rw [upperW, List.mem_map] at hc
  obtain ⟨d, _, rfl⟩ := hc
  exact notLowerToUpperC d

theorem lowerWSepFree (w : List Char) (h : ∀ c ∈ w, isSepC c = false) :
    ∀ c ∈ lowerW w, isSepC c = false := by
  intro c hc
  rw [lowerW, List.mem_map] at hc
  obtain ⟨d, hd, rfl⟩ := hc
  rw [sepToLowerC]
  exact h d hd

theorem upperWSepFree (w : List Char) (h : ∀ c ∈ w, isSepC c = false) :
    ∀ c ∈ upperW w, isSepC c = false := by
  intro c hc
  rw [upperW, List.mem_map] at hc
  obtain ⟨d, hd, rfl⟩ := hc
  rw [sepToUpperC]
  exact h d hd

theorem lowerWAlpha (w : List Char) (h : ∀ c ∈ w, isAlphaA c = true) :
    ∀ c ∈ lowerW w, isAlphaA c = true := by
  intro c hc
  rw [lowerW, List.mem_map] at hc
  obtain ⟨d, hd, rfl⟩ := hc
  exact alphaToLowerC d (h d hd)

theorem capAlpha (w : List Char) (h : ∀ c ∈ w, isAlphaA c = true) :
    ∀ c ∈ capitalize w, isAlphaA c = true := by
  cases w with
  | nil => simp [capitalize]
  | cons c t =>
    intro d hd
    simp only [capitalize, List.mem_cons] at hd
    rcases hd with rfl | hd
    · exact alphaToUpperC c (h c (List.mem_cons_self c t))
    · exact lowerWAlpha t (fun e he => h e (List.mem_cons_of_mem c he)) d hd

theorem lowerWAllLower (w : List Char) (h : ∀ c ∈ w, isAlphaA c = true) :
    ∀ c ∈ lowerW w, isLowerA c = true := by
  intro c hc
  rw [lowerW, List.mem_map] at hc
  obtain ⟨d, hd, rfl⟩ := hc
  exact lowerToLowerCAlpha d (h d hd)

/-! ## `camelSplit` lemmas -/

theorem noCamelPairConsNoUpper (c : Char) (t : List Char)
    (h : ∀ d ∈ t, isUpperA d = false) : noCamelPair (c :: t) = true := by
  induction t generalizing c with
  | nil => rfl
  | cons c2 rest ih =>
    simp only [noCamelPair, Bool.and_eq_true, Bool.not_eq_true']
    refine ⟨?_, ih c2 (fun d hd => h d (List.mem_cons_of_mem c2 hd))⟩
    rw [h c2 (List.mem_cons_self c2 rest)]
    simp

theorem noCamelPairOfNoUpper (l : List Char) (h : ∀ c ∈ l, isUpperA c = false) :
    noCamelPair l = true := by
  cases l with
  | nil => rfl
  | cons c t =>
    exact noCamelPairConsNoUpper c t (fun d hd => h d (List.mem_cons_of_mem c hd))

theorem noCamelPairOfNoLower (l : List Char) (h : ∀ c ∈ l, isLowerA c = false) :
    noCamelPair l = true := by
  induction l with
  | nil => rfl
  | cons c t ih =>
    cases t with
    | nil => rfl
    | cons c2 rest =>
      simp only [noCamelPair, Bool.and_eq_true, Bool.not_eq_true']
      refine ⟨?_, ih (fun d hd => h d (List.mem_cons_of_mem c hd))⟩
      rw [h c (List.mem_cons_self c _)]
      simp

theorem camelSplitId (l : List Char) (h : noCamelPair l = true) :
    camelSplit l = l := by
  induction l with
  | nil => rfl
  | cons c t ih =>
    cases t with
    | nil => rfl
    | cons c2 rest =>
      simp only [noCamelPair, Bool.and_eq_true, Bool.not_eq_true'] at h
      simp only [camelSplit, h.1, Bool.false_eq_true, if_false]
      rw [ih h.2]

theorem camelSplitBoundary (w l : List Char) (hw : noCamelPair w = true)
    (hlast : lastIsLower w = true) (hhead : headIsUpper l = true) :
    camelSplit (w ++ l) = w ++ ' ' :: camelSplit l := by
  induction w with
  | nil => simp [lastIsLower] at hlast
  | cons c t ih =>
    cases t with
    | nil =>
      cases l with
      | nil => simp [headIsUpper] at hhead
      | cons d l2 =>
        simp only [headIsUpper] at hhead
        simp only [lastIsLower] at hlast
        simp only [List.cons_append, List.nil_append, camelSplit, hlast, hhead]
        simp
    | cons c2 t2 =>
      simp only [noCamelPair, Bool.and_eq_true, Bool.not_eq_true'] at hw
      simp only [lastIsLower] at hlast
      simp only [List.cons_append, camelSplit, hw.1, Bool.false_eq_true, if_false,
        List.append_eq]
      have := ih hw.2 hlast
      simp only [List.cons_append] at this
      rw [this]

theorem memCamelSplit (l : List Char) : ∀ c ∈ camelSplit l, c ∈ l ∨ c = ' ' := by
  induction l with
  | nil => simp [camelSplit]
  | cons a t ih =>
    cases t with
    | nil =>
      intro c hc
      simp only [camelSplit, List.mem_singleton] at hc
      exact Or.inl (hc ▸ List.mem_singleton.mpr rfl)
    | cons a2 t2 =>
      intro c hc
      simp only [camelSplit] at hc
      by_cases hp : (isLowerA a && isUpperA a2) = true
      · rw [if_pos hp] at hc
        simp only [List.mem_cons] at hc
        rcases hc with rfl | rfl | hc
        · exact Or.inl (List.mem_cons_self _ _)
        · exact Or.inr rfl
        · rcases ih c hc with h | h
          · exact Or.inl (List.mem_cons_of_mem _ h)
          · exact Or.inr h
      · rw [if_neg hp] at hc
        simp only [List.mem_cons] at hc
        rcases hc with rfl | hc
        · exact Or.inl (List.mem_cons_self _ _)
        · rcases ih c hc with h | h
          · exact Or.inl (List.mem_cons_of_mem _ h)
          · exact Or.inr h

/-! ## `splitWsL` lemmas -/

theorem splitWsAllWs (l : List Char) (h : ∀ c ∈ l, isWsC c = true) :
    splitWsL l = [] := by
  induction l with
  | nil => rfl
  | cons c t ih =>
    simp only [splitWsL]
    rw [if_pos (h c (List.mem_cons_self c t))]
    exact ih (fun d hd => h d (List.mem_cons_of_mem c hd))

theorem splitWsInWordApp (w : List Char) (s : Char) (l : List Char)
    (hw : ∀ c ∈ w, isWsC c = false) (hs : isWsC s = true) :
    splitWsInWord (w ++ s :: l) = w :: splitWsL l := by
  induction w with
  | nil =>
    simp only [List.nil_append, splitWsInWord]
    rw [if_pos hs]
  | cons c t ih =>
    simp only [List.cons_append, splitWsInWord, List.append_eq]
    rw [if_neg (by rw [hw c (List.mem_cons_self c t)]; simp)]
    rw [ih (fun d hd => hw d (List.mem_cons_of_mem c hd))]
    rfl

theorem splitWsApp (w : List Char) (s : Char) (l : List Char) (hne : w ≠ [])
    (hw : ∀ c ∈ w, isWsC c = false) (hs : isWsC s = true) :
    splitWsL (w ++ s :: l) = w :: splitWsL l := by
  cases w with
  | nil => exact absurd rfl hne
  | cons c t =>
    simp only [List.cons_append, splitWsL, List.append_eq]
    rw [if_neg (by rw [hw c (List.mem_cons_self c t)]; simp)]
    rw [splitWsInWordApp t s l (fun d hd => hw d (List.mem_cons_of_mem c hd)) hs]
    rfl

theorem splitWsInWordFull (w : List Char) (hw : ∀ c ∈ w, isWsC c = false) :
    splitWsInWord w = [w] := by
  induction w with
  | nil => rfl
  | cons c t ih =>
    simp only [splitWsInWord]
    rw [if_neg (by rw [hw c (List.mem_cons_self c t)]; simp)]
    rw [ih (fun d hd => hw d (List.mem_cons_of_mem c hd))]
    rfl

theorem splitWsFull (w : List Char) (hne : w ≠ [])
    (hw : ∀ c ∈ w, isWsC c = false) : splitWsL w = [w] := by
  cases w with
  | nil => exact absurd rfl hne
  | cons c t =>
    simp only [splitWsL]
    rw [if_neg (by rw [hw c (List.mem_cons_self c t)]; simp)]
    rw [splitWsInWordFull t (fun d hd => hw d (List.mem_cons_of_mem c hd))]
    rfl

theorem splitWsChain (bs : List (List Char)) (a : List Char) (ha : a ≠ [])
    (haw : ∀ c ∈ a, isWsC c = false)
    (hbs : ∀ b ∈ bs, b ≠ [] ∧ ∀ c ∈ b, isWsC c = false) :
    splitWsL (a ++ (bs.map (fun b => ' ' :: b)).flatten) = a :: bs := by
  induction bs generalizing a with
  | nil =>
    simp only [List.map_nil, List.flatten_nil, List.append_nil]
    exact splitWsFull a ha haw
  | cons b t ih =>
    simp only [List.map_cons, List.flatten_cons, List.cons_append]
    rw [splitWsApp a ' ' _ ha haw (by decide)]
    rw [ih b (hbs b (List.mem_cons_self b t)).1 (hbs b (List.mem_cons_self b t)).2
      (fun x hx => hbs x (List.mem_cons_of_mem b hx))]

/-! ## `List.intercalate` bridge lemmas -/

theorem intercalateNilL (s : List Char) :
    List.intercalate s ([] : List (List Char)) = [] := by
  simp [List.intercalate]

theorem intercalateSingleL (s : List Char) (a : List Char) :
    List.intercalate s [a] = a := by
  simp [List.intercalate]

theorem intercalateConsCons (s a b : List Char) (t : List (List Char)) :
    List.intercalate s (a :: b :: t) = a ++ s ++ List.intercalate s (b :: t) := by
  simp [List.intercalate, List.intersperse]

theorem memIntercalate (s : Char) (ws : List (List Char)) :
    ∀ c ∈ List.intercalate [s] ws, c = s ∨ ∃ w ∈ ws, c ∈ w := by
  induction ws with
  | nil => simp [intercalateNilL]
  | cons a t ih =>
    cases t with
    | nil =>
      intro c hc
      rw [intercalateSingleL] at hc
      exact Or.inr ⟨a, List.mem_cons_self a [], hc⟩
    | cons b t2 =>
      intro c hc
      rw [intercalateConsCons] at hc
      simp only [List.mem_append, List.mem_singleton] at hc
      rcases hc with (hc | rfl) | hc
      · exact Or.inr ⟨a, List.mem_cons_self a _, hc⟩
      · exact Or.inl rfl
      · rcases ih c hc with h | ⟨w, hw, hcw⟩
        · exact Or.inl h
        · exact Or.inr ⟨w, List.mem_cons_of_mem a hw, hcw⟩

/-! ## `extractWords` invariants -/

theorem lengthDropWhileLe (p : Char → Bool) (l : List Char) :
    (l.dropWhile p).length ≤ l.length := by
  induction l with
  | nil => simp [List.dropWhile]
  | cons a t ih =>
    by_cases h : p a
    · simp only [List.dropWhile, h, List.length_cons]
      omega
    · simp [List.dropWhile, h]

theorem memTakeWhile (p : Char → Bool) :
    ∀ (l : List Char) (c), c ∈ l.takeWhile p → p c = true ∧ c ∈ l := by
  intro l
  induction l with
  | nil => simp [List.takeWhile]
  | cons a t ih =>
    intro c hc
    by_cases h : p a
    · rw [List.takeWhile_cons_of_pos h] at hc
      rcases List.mem_cons.mp hc with rfl | hc
      · exact ⟨h, List.mem_cons_self _ _⟩
      · exact ⟨(ih c hc).1, List.mem_cons_of_mem a (ih c hc).2⟩
    · rw [List.takeWhile_cons_of_neg h] at hc
      simp at hc

theorem memDropWhile (p : Char → Bool) :
    ∀ (l : List Char) (c), c ∈ l.dropWhile p → c ∈ l := by
  intro l
  induction l with
  | nil => simp [List.dropWhile]
  | cons a t ih =>
    intro c hc
    by_cases h : p a
    · rw [List.dropWhile_cons_of_pos h] at hc
      exact List.mem_cons_of_mem a (ih c hc)
    · rw [List.dropWhile_cons_of_neg h] at hc
      exact hc

/-- Bridge: `splitWsInWord` in terms of `takeWhile` / `dropWhile`. -/
theorem splitWsInWordEq (l : List Char) :
    splitWsInWord l = l.takeWhile (fun c => !isWsC c) ::
      splitWsL (l.dropWhile (fun c => !isWsC c)) := by
  induction l with
  | nil => rfl
  | cons c rest ih =>
    by_cases h : isWsC c = true
    · simp only [splitWsInWord, h, if_true]
      rw [List.takeWhile_cons_of_neg (by simp [h]),
        List.dropWhile_cons_of_neg (by simp [h])]
      simp only [splitWsL, h, if_true]
    · simp only [splitWsInWord, h, if_false]
      rw [List.takeWhile_cons_of_pos (by simp [h]),
        List.dropWhile_cons_of_pos (by simp [h]), ih]
      rfl

theorem splitWsEqCons (c : Char) (rest : List Char) (h : isWsC c = false) :
    splitWsL (c :: rest) = (c :: rest.takeWhile (fun d => !isWsC d)) ::
      splitWsL (rest.dropWhile (fun d => !isWsC d)) := by
  simp only [splitWsL, h, Bool.false_eq_true, if_false]
  rw [splitWsInWordEq]
  rfl

theorem memSplitWs :
    ∀ (n : Nat) (l : List Char), l.length ≤ n →
      ∀ w ∈ splitWsL l, w ≠ [] ∧ ∀ c ∈ w, isWsC c = false ∧ c ∈ l := by
  intro n
  induction n with
  | zero =>
    intro l hl
    rw [List.length_eq_zero.mp (Nat.le_zero.mp hl)]
    simp [splitWsL]
  | succ n ih =>
    intro l hl
    cases l with
    | nil => simp [splitWsL]
    | cons c rest =>
      by_cases h : isWsC c = true
      · simp only [splitWsL, h, if_true]
        intro w hw
        obtain ⟨h1, h2⟩ := ih rest (by simp at hl; omega) w hw
        exact ⟨h1, fun d hd => ⟨(h2 d hd).1, List.mem_cons_of_mem c (h2 d hd).2⟩⟩
      · rw [Bool.not_eq_true] at h
        rw [splitWsEqCons c rest h]
        intro w hw
        rcases List.mem_cons.mp hw with rfl | hw
        · refine ⟨by simp, ?_⟩
          intro d hd
          rcases List.mem_cons.mp hd with rfl | hd
          · exact ⟨h, List.mem_cons_self _ _⟩
          · obtain ⟨hp, hm⟩ := memTakeWhile _ rest d hd
            simp only [Bool.not_eq_true'] at hp
            exact ⟨hp, List.mem_cons_of_mem c hm⟩
        · have hlen : (rest.dropWhile (fun d => !isWsC d)).length ≤ n := by
            have := lengthDropWhileLe (fun d => !isWsC d) rest
            simp at hl
            omega
          obtain ⟨h1, h2⟩ := ih _ hlen w hw
          refine ⟨h1, fun d hd => ⟨(h2 d hd).1, ?_⟩⟩
          exact List.mem_cons_of_mem c (memDropWhile _ rest d (h2 d hd).2)

theorem dashToSpaceNotUnd (d : Char) : dashToSpace d ≠ '_' := by
  unfold dashToSpace
  by_cases h : (d = '_' || d = '-') = true
  · rw [if_pos h]; decide
  · rw [if_neg h]
    simp only [Bool.or_eq_true, decide_eq_true_eq] at h
    push_neg at h
    exact h.1

theorem dashToSpaceNotDash (d : Char) : dashToSpace d ≠ '-' := by
  unfold dashToSpace
  by_cases h : (d = '_' || d = '-') = true
  · rw [if_pos h]; decide
  · rw [if_neg h]
    simp only [Bool.or_eq_true, decide_eq_true_eq] at h
    push_neg at h
    exact h.2

theorem extractWordsNonempty (s : List Char) : ∀ w ∈ extractWords s, w ≠ [] :=
  fun w hw => (memSplitWs _ _ (Nat.le_refl _) w hw).1

theorem extractWordsSepFree (s : List Char) :
    ∀ w ∈ extractWords s, ∀ c ∈ w, isSepC c = false := by
  intro w hw c hc
  obtain ⟨_, h2⟩ := memSplitWs _ _ (Nat.le_refl _) w hw
  obtain ⟨hws, hmem⟩ := h2 c hc
  obtain ⟨d, _, rfl⟩ := List.mem_map.mp hmem
  rw [Bool.eq_false_iff]
  intro hsep
  rw [isSepCIff] at hsep
  have hws2 : ¬ ((dashToSpace d).toNat = 32 ∨ (dashToSpace d).toNat = 9 ∨
      (dashToSpace d).toNat = 10 ∨ (dashToSpace d).toNat = 11 ∨
      (dashToSpace d).toNat = 12 ∨ (dashToSpace d).toNat = 13) := by
    rw [← isWsCIff, hws]
    simp
  have h95 : (dashToSpace d).toNat = 95 ∨ (dashToSpace d).toNat = 45 := by tauto
  rcases h95 with h | h
  · exact dashToSpaceNotUnd d ((charEqIffToNat _ _).mpr h)
  · exact dashToSpaceNotDash d ((charEqIffToNat _ _).mpr h)

theorem extractWordsNoDot (s : List Char) (h : '.' ∉ s) :
    ∀ w ∈ extractWords s, '.' ∉ w := by
  intro w hw hdot
  obtain ⟨_, h2⟩ := memSplitWs _ _ (Nat.le_refl _) w hw
  obtain ⟨_, hmem⟩ := h2 '.' hdot
  obtain ⟨d, hd, hds⟩ := List.mem_map.mp hmem
  have hd' : d = '.' := by
    unfold dashToSpace at hds
    by_cases hc : (d = '_' || d = '-') = true
    · rw [if_pos hc] at hds; exact absurd hds (by decide)
    · rw [if_neg hc] at hds; exact hds
  subst hd'
  rcases memCamelSplit s '.' hd with h3 | h3
  · exact h h3
  · exact absurd h3 (by decide)

/-! ## Round trips for the separator-joined conventions -/

theorem dashToSpaceSepId (w : List Char) (h : ∀ c ∈ w, isSepC c = false) :
    w.map dashToSpace = w := by
  induction w with
  | nil => rfl
  | cons c t ih =>
    simp only [List.map_cons]
    rw [ih (fun d hd => h d (List.mem_cons_of_mem c hd))]
    have h1 := sepNotUnd c (h c (List.mem_cons_self c t))
    have h2 := sepNotDash c (h c (List.mem_cons_self c t))
    unfold dashToSpace
    rw [if_neg (by simp [h1, h2])]

theorem intercalateSpaceChain (a : List Char) (t : List (List Char)) :
    List.intercalate [' '] (a :: t) = a ++ (t.map (fun b => ' ' :: b)).flatten := by
  induction t generalizing a with
  | nil => simp [intercalateSingleL]
  | cons b t2 ih =>
    rw [intercalateConsCons, ih b]
    simp

theorem mapDashToSpaceIntercalate (sep : Char) (hsep : sep = '_' ∨ sep = '-')
    (ws : List (List Char)) (hws : ∀ w ∈ ws, ∀ c ∈ w, isSepC c = false) :
    (List.intercalate [sep] ws).map dashToSpace = List.intercalate [' '] ws := by
  induction ws with
  | nil => simp [intercalateNilL]
  | cons a t ih =>
    cases t with
    | nil =>
      rw [intercalateSingleL, intercalateSingleL]
      exact dashToSpaceSepId a (hws a (List.mem_cons_self a _))
    | cons b t2 =>
      rw [intercalateConsCons, intercalateConsCons]
      simp only [List.map_append]
      rw [dashToSpaceSepId a (hws a (List.mem_cons_self a _)),
        ih (fun x hx => hws x (List.mem_cons_of_mem a hx))]
      have hone : [sep].map dashToSpace = [' '] := by
        rcases hsep with rfl | rfl <;> rfl
      rw [hone]

theorem extractWordsIntercalate (sep : Char) (hsep : sep = '_' ∨ sep = '-')
    (ws : List (List Char)) (hne : ∀ w ∈ ws, w ≠ [])
    (hsf : ∀ w ∈ ws, ∀ c ∈ w, isSepC c = false)
    (hnp : noCamelPair (List.intercalate [sep] ws) = true) :
    extractWords (List.intercalate [sep] ws) = ws := by
  unfold extractWords
  rw [camelSplitId _ hnp, mapDashToSpaceIntercalate sep hsep ws hsf]
  cases ws with
  | nil => simp [intercalateNilL, splitWsL]
  | cons a t =>
    rw [intercalateSpaceChain]
    exact splitWsChain t a (hne a (List.mem_cons_self a _))
      (fun c hc => wsOfSep c (hsf a (List.mem_cons_self a _) c hc))
      (fun b hb => ⟨hne b (List.mem_cons_of_mem a hb),
        fun c hc => wsOfSep c (hsf b (List.mem_cons_of_mem a hb) c hc)⟩)

/-! ## Idempotence of `convertToConvention` (amended) -/

theorem dotToUpperC (c : Char) (h : toUpperC c = '.') : c = '.' := by
  rcases hu : isLowerA c with _ | _
  · rw [toUpperCOfNotLower c hu] at h; exact h
  · exfalso
    have h1 := toUpperCToNat c hu
    rw [isLowerAIff] at hu
    rw [charEqIffToNat] at h
    have h2 : ('.' : Char).toNat = 46 := rfl
    omega

theorem lastDotNone (l : List Char) (h : '.' ∉ l) : lastDot l = none := by
  induction l with
  | nil => rfl
  | cons c t ih =>
    have ht : lastDot t = none := ih (fun hm => h (List.mem_cons_of_mem c hm))
    simp only [lastDot, ht]
    rw [if_neg (fun hc => h (by rw [← hc]; exact List.mem_cons_self c t))]

theorem getBaseNameNoDot (l : List Char) (h : '.' ∉ l) : getBaseName l = l := by
  rw [getBaseName, lastDotNone l h]

theorem noDotIntercalate (sep : Char) (hsep : sep ≠ '.') (ws : List (List Char))
    (hws : ∀ w ∈ ws, '.' ∉ w) : '.' ∉ List.intercalate [sep] ws := by
  intro hmem
  rcases memIntercalate sep ws '.' hmem with h | ⟨w, hw, hc⟩
  · exact hsep h.symm
  · exact hws w hw hc

theorem noDotLowerW (w : List Char) (h : '.' ∉ w) : '.' ∉ lowerW w := by
  intro hm
  obtain ⟨d, hd, hds⟩ := List.mem_map.mp hm
  exact h (dotToLowerC d hds ▸ hd)

theorem noDotUpperW (w : List Char) (h : '.' ∉ w) : '.' ∉ upperW w := by
  intro hm
  obtain ⟨d, hd, hds⟩ := List.mem_map.mp hm
  exact h (dotToUpperC d hds ▸ hd)

theorem noUpperIntercalate (sep : Char) (hsep : isUpperA sep = false)
    (vs : List (List Char)) (hvs : ∀ v ∈ vs, ∀ c ∈ v, isUpperA c = false) :
    ∀ c ∈ List.intercalate [sep] vs, isUpperA c = false := by
  intro c hc
  rcases memIntercalate sep vs c hc with rfl | ⟨v, hv, hcv⟩
  · exact hsep
  · exact hvs v hv c hcv

theorem noLowerIntercalate (sep : Char) (hsep : isLowerA sep = false)
    (vs : List (List Char)) (hvs : ∀ v ∈ vs, ∀ c ∈ v, isLowerA c = false) :
    ∀ c ∈ List.intercalate [sep] vs, isLowerA c = false := by
  intro c hc
  rcases memIntercalate sep vs c hc with rfl | ⟨v, hv, hcv⟩
  · exact hsep
  · exact hvs v hv c hcv

/-- Round trip of an intercalated word list through base-name stripping
and re-segmentation. -/
theorem sepJoinRoundTrip (sep : Char) (hsep : sep = '_' ∨ sep = '-')
    (vs : List (List Char)) (hne : ∀ v ∈ vs, v ≠ [])
    (hsf : ∀ v ∈ vs, ∀ c ∈ v, isSepC c = false)
    (hnd : ∀ v ∈ vs, '.' ∉ v)
    (hnp : noCamelPair (List.intercalate [sep] vs) = true) :
    getBaseName (List.intercalate [sep] vs) = List.intercalate [sep] vs ∧
      extractWords (List.intercalate [sep] vs) = vs := by
  constructor
  · refine getBaseNameNoDot _ (noDotIntercalate sep ?_ vs hnd)
    rcases hsep with rfl | rfl <;> decide
  · exact extractWordsIntercalate sep hsep vs hne hsf hnp

theorem mapLowerWIdem (ws : List (List Char)) :
    (ws.map lowerW).map lowerW = ws.map lowerW := by
  induction ws with
  | nil => rfl
  | cons w t ih => simp only [List.map_cons, lowerWIdem, ih]

theorem mapUpperWIdem (ws : List (List Char)) :
    (ws.map upperW).map upperW = ws.map upperW := by
  induction ws with
  | nil => rfl
  | cons w t ih => simp only [List.map_cons, upperWIdem, ih]

theorem mapCapIdem (ws : List (List Char)) :
    (ws.map capitalize).map capitalize = ws.map capitalize := by
  induction ws with
  | nil => rfl
  | cons w t ih => simp only [List.map_cons, capIdem, ih]

theorem convertSnakeIdem (s : List Char) (h : '.' ∉ s) :
    convertToConvention (convertToConvention s snakeCase) snakeCase =
      convertToConvention s snakeCase := by
  have hbase : getBaseName s = s := getBaseNameNoDot s h
  have hne := extractWordsNonempty s
  have hsf := extractWordsSepFree s
  have hnd := extractWordsNoDot s h
  have hinner : convertToConvention s snakeCase =
      List.intercalate ['_'] ((extractWords s).map lowerW) := by
    rw [convertToConvention, hbase]
    rfl
  rw [hinner]
  have hne2 : ∀ v ∈ (extractWords s).map lowerW, v ≠ [] := by
    intro v hv
    obtain ⟨w, hw, rfl⟩ := List.mem_map.mp hv
    exact lowerWNeNil w (hne w hw)
  have hsf2 : ∀ v ∈ (extractWords s).map lowerW, ∀ c ∈ v, isSepC c = false := by
    intro v hv
    obtain ⟨w, hw, rfl⟩ := List.mem_map.mp hv
    exact lowerWSepFree w (hsf w hw)
  have hnd2 : ∀ v ∈ (extractWords s).map lowerW, '.' ∉ v := by
    intro v hv
    obtain ⟨w, hw, rfl⟩ := List.mem_map.mp hv
    exact noDotLowerW w (hnd w hw)
  have hnp : noCamelPair (List.intercalate ['_'] ((extractWords s).map lowerW)) = true := by
    refine noCamelPairOfNoUpper _ (noUpperIntercalate '_' (by decide) _ ?_)
    intro v hv
    obtain ⟨w, hw, rfl⟩ := List.mem_map.mp hv
    exact lowerWNoUpper w
  obtain ⟨hb, he⟩ := sepJoinRoundTrip '_' (Or.inl rfl) ((extractWords s).map lowerW)
    hne2 hsf2 hnd2 hnp
  rw [convertToConvention, hb, he]
  show List.intercalate ['_'] (((extractWords s).map lowerW).map lowerW) = _
  rw [mapLowerWIdem]

theorem convertKebabIdem (s : List Char) (h : '.' ∉ s) :
    convertToConvention (convertToConvention s kebabCase) kebabCase =
      convertToConvention s kebabCase := by
  have hbase : getBaseName s = s := getBaseNameNoDot s h
  have hne := extractWordsNonempty s
  have hsf := extractWordsSepFree s
  have hnd := extractWordsNoDot s h
  have hinner : convertToConvention s kebabCase =
      List.intercalate ['-'] ((extractWords s).map lowerW) := by
    rw [convertToConvention, hbase]
    rfl
  rw [hinner]
  have hne2 : ∀ v ∈ (extractWords s).map lowerW, v ≠ [] := by
    intro v hv
    obtain ⟨w, hw, rfl⟩ := List.mem_map.mp hv
    exact lowerWNeNil w (hne w hw)
  have hsf2 : ∀ v ∈ (extractWords s).map lowerW, ∀ c ∈ v, isSepC c = false := by
    intro v hv
    obtain ⟨w, hw, rfl⟩ := List.mem_map.mp hv
    exact lowerWSepFree w (hsf w hw)
  have hnd2 : ∀ v ∈ (extractWords s).map lowerW, '.' ∉ v := by
    intro v hv
    obtain ⟨w, hw, rfl⟩ := List.mem_map.mp hv
    exact noDotLowerW w (hnd w hw)
  have hnp : noCamelPair (List.intercalate ['-'] ((extractWords s).map lowerW)) = true := by
    refine noCamelPairOfNoUpper _ (noUpperIntercalate '-' (by decide) _ ?_)
    intro v hv
    obtain ⟨w, hw, rfl⟩ := List.mem_map.mp hv
    exact lowerWNoUpper w
  obtain ⟨hb, he⟩ := sepJoinRoundTrip '-' (Or.inr rfl) ((extractWords s).map lowerW)
    hne2 hsf2 hnd2 hnp
  rw [convertToConvention, hb, he]
  show List.intercalate ['-'] (((extractWords s).map lowerW).map lowerW) = _
  rw [mapLowerWIdem]

theorem convertUpperIdem (s : List Char) (h : '.' ∉ s) :
    convertToConvention (convertToConvention s upperSnakeCase) upperSnakeCase =
      convertToConvention s upperSnakeCase := by
  have hbase : getBaseName s = s := getBaseNameNoDot s h
  have hne := extractWordsNonempty s
  have hsf := extractWordsSepFree s
  have hnd := extractWordsNoDot s h
  have hinner : convertToConvention s upperSnakeCase =
      List.intercalate ['_'] ((extractWords s).map upperW) := by
    rw [convertToConvention, hbase]
    rfl
  rw [hinner]
  have hne2 : ∀ v ∈ (extractWords s).map upperW, v ≠ [] := by
    intro v hv
    obtain ⟨w, hw, rfl⟩ := List.mem_map.mp hv
    exact upperWNeNil w (hne w hw)
  have hsf2 : ∀ v ∈ (extractWords s).map upperW, ∀ c ∈ v, isSepC c = false := by
    intro v hv
    obtain ⟨w, hw, rfl⟩ := List.mem_map.mp hv
    exact upperWSepFree w (hsf w hw)
  have hnd2 : ∀ v ∈ (extractWords s).map upperW, '.' ∉ v := by
    intro v hv
    obtain ⟨w, hw, rfl⟩ := List.mem_map.mp hv
    exact noDotUpperW w (hnd w hw)
  have hnp : noCamelPair (List.intercalate ['_'] ((extractWords s).map upperW)) = true := by
    refine noCamelPairOfNoLower _ (noLowerIntercalate '_' (by decide) _ ?_)
    intro v hv
    obtain ⟨w, hw, rfl⟩ := List.mem_map.mp hv
    exact upperWNoLower w
  obtain ⟨hb, he⟩ := sepJoinRoundTrip '_' (Or.inl rfl) ((extractWords s).map upperW)
    hne2 hsf2 hnd2 hnp
  rw [convertToConvention, hb, he]
  show List.intercalate ['_'] (((extractWords s).map upperW).map upperW) = _
  rw [mapUpperWIdem]
/-! ## Restricted idempotence for camelCase / PascalCase -/

theorem headIsUpperAppend (b x : List Char) (h : headIsUpper b = true) :
    headIsUpper (b ++ x) = true := by
  cases b with
  | nil => simp [headIsUpper] at h
  | cons c t => exact h

theorem lastIsLowerCons (c : Char) (w : List Char) (hne : w ≠ []) :
    lastIsLower (c :: w) = lastIsLower w := by
  cases w with
  | nil => exact absurd rfl hne
  | cons d t => rfl

theorem lastIsLowerOfAllLower (w : List Char) (hne : w ≠ [])
    (h : ∀ c ∈ w, isLowerA c = true) : lastIsLower w = true := by
  induction w with
  | nil => exact absurd rfl hne
  | cons c t ih =>
    cases t with
    | nil => exact h c (List.mem_cons_self c [])
    | cons d r =>
      rw [lastIsLowerCons c _ (by simp)]
      exact ih (by simp) (fun x hx => h x (List.mem_cons_of_mem c hx))

theorem camelSplitChain (bs : List (List Char)) (a : List Char)
    (ha : noCamelPair a = true) (hal : lastIsLower a = true)
    (hbs : ∀ b ∈ bs, noCamelPair b = true ∧ lastIsLower b = true ∧
      headIsUpper b = true) :
    camelSplit (a ++ bs.flatten) = a ++ (bs.map (fun b => ' ' :: b)).flatten := by
  induction bs generalizing a with
  | nil =>
    simp only [List.flatten_nil, List.append_nil, List.map_nil]
    exact camelSplitId a ha
  | cons b t ih =>
    obtain ⟨hb1, hb2, hb3⟩ := hbs b (List.mem_cons_self b t)
    have hhd : headIsUpper (b ++ t.flatten) = true := headIsUpperAppend b _ hb3
    simp only [List.flatten_cons, List.map_cons]
    rw [camelSplitBoundary a (b ++ t.flatten) ha hal hhd]
    rw [ih b hb1 hb2 (fun x hx => hbs x (List.mem_cons_of_mem b hx))]
    simp

theorem charsOfChain (a : List Char) (bs : List (List Char)) :
    ∀ c ∈ a ++ (bs.map (fun b => ' ' :: b)).flatten,
      c ∈ a ∨ c = ' ' ∨ ∃ b ∈ bs, c ∈ b := by
  intro c hc
  rcases List.mem_append.mp hc with h | h
  · exact Or.inl h
  · obtain ⟨l, hl, hcl⟩ := List.mem_flatten.mp h
    obtain ⟨b, hb, rfl⟩ := List.mem_map.mp hl
    rcases List.mem_cons.mp hcl with rfl | hcb
    · exact Or.inr (Or.inl rfl)
    · exact Or.inr (Or.inr ⟨b, hb, hcb⟩)

theorem dashToSpaceIdNotUndDash (l : List Char)
    (h : ∀ c ∈ l, c ≠ '_' ∧ c ≠ '-') : l.map dashToSpace = l := by
  induction l with
  | nil => rfl
  | cons c t ih =>
    simp only [List.map_cons]
    rw [ih (fun d hd => h d (List.mem_cons_of_mem c hd))]
    have h1 := h c (List.mem_cons_self c t)
    unfold dashToSpace
    rw [if_neg (by simp [h1.1, h1.2])]

theorem noDotAllAlpha (l : List Char) (h : ∀ c ∈ l, isAlphaA c = true) :
    '.' ∉ l := fun hm => absurd (h '.' hm) (by decide)

/-- The three block properties of `capitalize w` for an alphabetic word
of length at least 2. -/
theorem capProps (w : List Char) (ha : ∀ c ∈ w, isAlphaA c = true)
    (hl : 2 ≤ w.length) :
    noCamelPair (capitalize w) = true ∧ lastIsLower (capitalize w) = true ∧
      headIsUpper (capitalize w) = true := by
  cases w with
  | nil => simp at hl
  | cons c t =>
    cases t with
    | nil => simp at hl
    | cons d r =>
      have htail : ∀ x ∈ (d :: r), isAlphaA x = true :=
        fun x hx => ha x (List.mem_cons_of_mem c hx)
      refine ⟨?_, ?_, ?_⟩
      · exact noCamelPairConsNoUpper _ _ (lowerWNoUpper (d :: r))
      · show lastIsLower (toUpperC c :: lowerW (d :: r)) = true
        rw [lastIsLowerCons _ _ (lowerWNeNil _ (by simp))]
        exact lastIsLowerOfAllLower _ (lowerWNeNil _ (by simp))
          (lowerWAllLower _ htail)
      · exact upperToUpperCAlpha c (ha c (List.mem_cons_self c _))

theorem chainAlpha (a : List Char) (bs : List (List Char))
    (haA : ∀ c ∈ a, isAlphaA c = true)
    (hbsA : ∀ b ∈ bs, ∀ c ∈ b, isAlphaA c = true) :
    ∀ c ∈ a ++ bs.flatten, isAlphaA c = true := by
  intro c hc
  rcases List.mem_append.mp hc with h | h
  · exact haA c h
  · obtain ⟨l, hl, hcl⟩ := List.mem_flatten.mp h
    exact hbsA l hl c hcl

/-- Re-segmentation of a camel-style chain `a ++ flatten bs` where `a`
and the blocks satisfy the boundary conditions. -/
theorem extractWordsChain (a : List Char) (bs : List (List Char))
    (haNe : a ≠ []) (haA : ∀ c ∈ a, isAlphaA c = true)
    (ha : noCamelPair a = true) (hal : lastIsLower a = true)
    (hbsA : ∀ b ∈ bs, ∀ c ∈ b, isAlphaA c = true)
    (hbsNe : ∀ b ∈ bs, b ≠ [])
    (hbs : ∀ b ∈ bs, noCamelPair b = true ∧ lastIsLower b = true ∧
      headIsUpper b = true) :
    extractWords (a ++ bs.flatten) = a :: bs := by
  unfold extractWords
  rw [camelSplitChain bs a ha hal hbs]
  rw [dashToSpaceIdNotUndDash _ (by
    intro c hc
    rcases charsOfChain a bs c hc with h | h | ⟨b, hb, hcb⟩
    · have := alphaNotSep c (haA c h)
      exact ⟨sepNotUnd c this, sepNotDash c this⟩
    · subst h
      exact ⟨by decide, by decide⟩
    · have := alphaNotSep c (hbsA b hb c hcb)
      exact ⟨sepNotUnd c this, sepNotDash c this⟩)]
  exact splitWsChain bs a haNe
    (fun c hc => alphaNotWs c (haA c hc))
    (fun b hb => ⟨hbsNe b hb, fun c hc => alphaNotWs c (hbsA b hb c hc)⟩)

theorem convertCamelIdemRestricted (s : List Char)
    (hws : ∀ w ∈ extractWords (getBaseName s),
      (∀ c ∈ w, isAlphaA c = true) ∧ 2 ≤ w.length) :
    convertToConvention (convertToConvention s camelCase) camelCase =
      convertToConvention s camelCase := by
  rcases hcase : extractWords (getBaseName s) with _ | ⟨w0, rest⟩
  · have hinner : convertToConvention s camelCase = "undefined".data := by
      rw [convertToConvention, hcase]
      rfl
    rw [hinner]
    decide
  · rw [hcase] at hws
    have h0 := hws w0 (List.mem_cons_self w0 rest)
    have hrest : ∀ w ∈ rest, (∀ c ∈ w, isAlphaA c = true) ∧ 2 ≤ w.length :=
      fun w hw => hws w (List.mem_cons_of_mem w0 hw)
    have h0ne : w0 ≠ [] := by
      intro hn
      rw [hn] at h0
      simp at h0
    have hinner : convertToConvention s camelCase =
        lowerW w0 ++ (rest.map capitalize).flatten := by
      rw [convertToConvention, hcase]
      rfl
    rw [hinner]
    have haA : ∀ c ∈ lowerW w0, isAlphaA c = true := lowerWAlpha w0 h0.1
    have hbsA : ∀ b ∈ rest.map capitalize, ∀ c ∈ b, isAlphaA c = true := by
      intro b hb
      obtain ⟨w, hw, rfl⟩ := List.mem_map.mp hb
      exact capAlpha w (hrest w hw).1
    have hbsNe : ∀ b ∈ rest.map capitalize, b ≠ [] := by
      intro b hb
      obtain ⟨w, hw, rfl⟩ := List.mem_map.mp hb
      refine capNeNil w ?_
      intro hn
      rw [hn] at hw
      obtain ⟨h1, h2⟩ := hrest [] hw
      simp at h2
    have hbs : ∀ b ∈ rest.map capitalize, noCamelPair b = true ∧
        lastIsLower b = true ∧ headIsUpper b = true := by
      intro b hb
      obtain ⟨w, hw, rfl⟩ := List.mem_map.mp hb
      exact capProps w (hrest w hw).1 (hrest w hw).2
    have hchainA : ∀ c ∈ lowerW w0 ++ (rest.map capitalize).flatten,
        isAlphaA c = true := chainAlpha _ _ haA hbsA
    rw [convertToConvention,
      getBaseNameNoDot _ (noDotAllAlpha _ hchainA),
      extractWordsChain (lowerW w0) (rest.map capitalize)
        (lowerWNeNil w0 h0ne) haA
        (noCamelPairOfNoUpper _ (lowerWNoUpper w0))
        (lastIsLowerOfAllLower _ (lowerWNeNil w0 h0ne) (lowerWAllLower w0 h0.1))
        hbsA hbsNe hbs]
    show lowerW (lowerW w0) ++ ((rest.map capitalize).map capitalize).flatten = _
    rw [lowerWIdem, mapCapIdem]

theorem convertPascalIdemRestricted (s : List Char)
    (hws : ∀ w ∈ extractWords (getBaseName s),
      (∀ c ∈ w, isAlphaA c = true) ∧ 2 ≤ w.length) :
    convertToConvention (convertToConvention s pascalCase) pascalCase =
      convertToConvention s pascalCase := by
  rcases hcase : extractWords (getBaseName s) with _ | ⟨w0, rest⟩
  · have hinner : convertToConvention s pascalCase = [] := by
      rw [convertToConvention, hcase]
      rfl
    rw [hinner]
    decide
  · rw [hcase] at hws
    have h0 := hws w0 (List.mem_cons_self w0 rest)
    have hrest : ∀ w ∈ rest, (∀ c ∈ w, isAlphaA c = true) ∧ 2 ≤ w.length :=
      fun w hw => hws w (List.mem_cons_of_mem w0 hw)
    have hinner : convertToConvention s pascalCase =
        capitalize w0 ++ (rest.map capitalize).flatten := by
      rw [convertToConvention, hcase]
      rfl
    rw [hinner]
    have h0ne : w0 ≠ [] := by
      intro hn
      rw [hn] at h0
      simp at h0
    obtain ⟨hp1, hp2, hp3⟩ := capProps w0 h0.1 h0.2
    have haA : ∀ c ∈ capitalize w0, isAlphaA c = true := capAlpha w0 h0.1
    have hbsA : ∀ b ∈ rest.map capitalize, ∀ c ∈ b, isAlphaA c = true := by
      intro b hb
      obtain ⟨w, hw, rfl⟩ := List.mem_map.mp hb
      exact capAlpha w (hrest w hw).1
    have hbsNe : ∀ b ∈ rest.map capitalize, b ≠ [] := by
      intro b hb
      obtain ⟨w, hw, rfl⟩ := List.mem_map.mp hb
      refine capNeNil w ?_
      intro hn
      rw [hn] at hw
      obtain ⟨h1, h2⟩ := hrest [] hw
      simp at h2
    have hbs : ∀ b ∈ rest.map capitalize, noCamelPair b = true ∧
        lastIsLower b = true ∧ headIsUpper b = true := by
      intro b hb
      obtain ⟨w, hw, rfl⟩ := List.mem_map.mp hb
      exact capProps w (hrest w hw).1 (hrest w hw).2
    have hchainA : ∀ c ∈ capitalize w0 ++ (rest.map capitalize).flatten,
        isAlphaA c = true := chainAlpha _ _ haA hbsA
    rw [convertToConvention,
      getBaseNameNoDot _ (noDotAllAlpha _ hchainA),
      extractWordsChain (capitalize w0) (rest.map capitalize)
        (capNeNil w0 h0ne) haA hp1 hp2 hbsA hbsNe hbs]
    show capitalize (capitalize w0) ++
      ((rest.map capitalize).map capitalize).flatten = _
    rw [capIdem, mapCapIdem]

/-! ## Claim C1 -/

/-- C1, counterexample: `Convert` is NOT idempotent for every convention
and every input string.  At `s = "a_b_c"` and `c = camelCase`,
`Convert(s, c) = "aBC"` but `Convert("aBC", camelCase) = "aBc"`: the
segmenter cannot recover the word boundary between the two adjacent
uppercase letters it produced. -/
theorem claimC1Counterexample :
    convertToConvention (convertToConvention "a_b_c".data camelCase) camelCase ≠
      convertToConvention "a_b_c".data camelCase ∧
    convertToConvention "a_b_c".data camelCase = "aBC".data ∧
    convertToConvention (convertToConvention "a_b_c".data camelCase) camelCase =
      "aBc".data := by
  refine ⟨?_, by decide, by decide⟩
  decide

/-- C1 (amended): `Convert` is idempotent (a) for `snake_case`,
`kebab-case` and `UPPER_SNAKE_CASE` on every period-free string, and
(b) for `camelCase` and `PascalCase` on every string each of whose
extracted words is purely ASCII-alphabetic of length at least 2. -/
theorem claimC1Amended :
    (∀ (s : List Char) (conv : Convention),
      (conv = snakeCase ∨ conv = kebabCase ∨ conv = upperSnakeCase) →
      '.' ∉ s →
      convertToConvention (convertToConvention s conv) conv =
        convertToConvention s conv) ∧
    (∀ (s : List Char) (conv : Convention),
      (conv = camelCase ∨ conv = pascalCase) →
      (∀ w ∈ extractWords (getBaseName s),
        (∀ c ∈ w, isAlphaA c = true) ∧ 2 ≤ w.length) →
      convertToConvention (convertToConvention s conv) conv =
        convertToConvention s conv) := by
  constructor
  · intro s conv hc hdot
    rcases hc with rfl | rfl | rfl
    · exact convertSnakeIdem s hdot
    · exact convertKebabIdem s hdot
    · exact convertUpperIdem s hdot
  · intro s conv hc hws
    rcases hc with rfl | rfl
    · exact convertCamelIdemRestricted s hws
    · exact convertPascalIdemRestricted s hws

/-- Witness for C1 (amended) at concrete inputs. -/
theorem claimC1Witness :
    convertToConvention (convertToConvention "user_name".data snakeCase)
      snakeCase = convertToConvention "user_name".data snakeCase ∧
    convertToConvention (convertToConvention "fileOne".data camelCase)
      camelCase = convertToConvention "fileOne".data camelCase :=
  ⟨claimC1Amended.1 "user_name".data snakeCase (Or.inl rfl) (by decide),
   claimC1Amended.2 "fileOne".data camelCase (Or.inl rfl) (by decide)⟩

/-! ## Claim C3 -/

theorem sepNotLower (c : Char) (h : isSepC c = true) : isLowerA c = false := by
  rw [isSepCIff] at h
  rw [Bool.eq_false_iff]
  intro hl
  rw [isLowerAIff] at hl
  omega

theorem sepNotDot (c : Char) (h : isSepC c = true) : c ≠ '.' := by
  intro hc
  rw [hc] at h
  exact absurd h (by decide)

theorem sepDashToSpaceWs (d : Char) (h : isSepC d = true) :
    isWsC (dashToSpace d) = true := by
  unfold dashToSpace
  by_cases hc : (d = '_' || d = '-') = true
  · rw [if_pos hc]; decide
  · rw [if_neg hc]
    simp only [Bool.or_eq_true, decide_eq_true_eq] at hc
    push_neg at hc
    rw [isWsCIff]
    rw [isSepCIff] at h
    rcases hc with ⟨hc1, hc2⟩
    have hc1n : d.toNat ≠ 95 := fun hn => hc1 ((charEqIffToNat d '_').mpr hn)
    have hc2n : d.toNat ≠ 45 := fun hn => hc2 ((charEqIffToNat d '-').mpr hn)
    omega

/-- C3 is a code bug: for an empty or boundary-only string the segmenter
does return the empty word sequence and the membership patterns do
reject the empty name, but the camelCase join of the empty sequence is
the 9-character string `"undefined"` (JavaScript
`words[0]?.toLowerCase() + ...` coerces `undefined`), not the empty
string the specification requires. -/
theorem claimC3CodeBug :
    (∀ s : List Char, (∀ c ∈ s, isSepC c = true) →
      extractWords s = [] ∧
      convertToConvention s camelCase = "undefined".data ∧
      convertToConvention s snakeCase = [] ∧
      convertToConvention s kebabCase = [] ∧
      convertToConvention s pascalCase = [] ∧
      convertToConvention s upperSnakeCase = []) ∧
    (∀ conv : Convention, matchesConvention [] conv = false) ∧
    (∀ conv : Convention, codeValidateConvention [] conv = false) ∧
    (∀ conv : Convention, (validateName [] conv []).isValid = false) := by
  refine ⟨?_, ?_, ?_, ?_⟩
  · intro s hsep
    have hdot : '.' ∉ s := fun hm => sepNotDot '.' (hsep '.' hm) rfl
    have hbase : getBaseName s = s := getBaseNameNoDot s hdot
    have hcs : camelSplit s = s :=
      camelSplitId s (noCamelPairOfNoLower s (fun c hc => sepNotLower c (hsep c hc)))
    have hsplit : extractWords s = [] := by
      unfold extractWords
      rw [hcs]
      refine splitWsAllWs _ ?_
      intro c hc
      obtain ⟨d, hd, rfl⟩ := List.mem_map.mp hc
      exact sepDashToSpaceWs d (hsep d hd)
    refine ⟨hsplit, ?_, ?_, ?_, ?_, ?_⟩ <;>
      rw [convertToConvention, hbase, hsplit] <;> rfl
  · intro conv; cases conv <;> rfl
  · intro conv; cases conv <;> rfl
  · intro conv; cases conv <;> decide

/-- Witness for C3 at the boundary-only input `"_- "`. -/
theorem claimC3Witness :
    extractWords "_- ".data = [] ∧
    convertToConvention "_- ".data camelCase = "undefined".data ∧
    convertToConvention "_- ".data snakeCase = [] :=
  ⟨(claimC3CodeBug.1 "_- ".data (by decide)).1,
   (claimC3CodeBug.1 "_- ".data (by decide)).2.1,
   (claimC3CodeBug.1 "_- ".data (by decide)).2.2.1⟩

/-! ## Claim C2: agreement domain -/




theorem mkSimpleConsEq (w : List Char) (s : Char) (w2 : List Char)
    (rest : List (Char × List Char)) :
    mkSimpleName w ((s, w2) :: rest) = w ++ s :: mkSimpleName w2 rest := by
  simp [mkSimpleName]

theorem ldNotUpper (c : Char) (h : isLowerDigit c = true) : isUpperA c = false := by
  simp only [isLowerDigit, Bool.or_eq_true] at h
  rw [Bool.eq_false_iff]
  intro hu
  rw [isUpperAIff] at hu
  rcases h with h | h
  · rw [isLowerAIff] at h; omega
  · rw [isDigitAIff] at h; omega

theorem ldNotSep (c : Char) (h : isLowerDigit c = true) : isSepC c = false := by
  simp only [isLowerDigit, Bool.or_eq_true] at h
  rw [Bool.eq_false_iff]
  intro hs
  rw [isSepCIff] at hs
  rcases h with h | h
  · rw [isLowerAIff] at h; omega
  · rw [isDigitAIff] at h; omega

theorem ldNotDot (c : Char) (h : isLowerDigit c = true) : c ≠ '.' := by
  simp only [isLowerDigit, Bool.or_eq_true] at h
  intro hc
  subst hc
  rcases h with h | h
  · exact absurd h (by decide)
  · exact absurd h (by decide)

theorem ldToLowerCId (c : Char) (h : isLowerDigit c = true) : toLowerC c = c :=
  toLowerCOfNotUpper c (ldNotUpper c h)

theorem lowerWIdNotUpper (l : List Char) (h : ∀ c ∈ l, isUpperA c = false) :
    lowerW l = l := by
  induction l with
  | nil => rfl
  | cons c t ih =>
    simp only [lowerW, List.map_cons]
    rw [toLowerCOfNotUpper c (h c (List.mem_cons_self c t))]
    have := ih (fun d hd => h d (List.mem_cons_of_mem c hd))
    simp only [lowerW] at this
    rw [this]

theorem memMkSimple (w : List Char) (rest : List (Char × List Char)) :
    ∀ c ∈ mkSimpleName w rest,
      c ∈ w ∨ ∃ q ∈ rest, c = q.1 ∨ c ∈ q.2 := by
  intro c hc
  rcases List.mem_append.mp hc with h | h
  · exact Or.inl h
  · obtain ⟨l, hl, hcl⟩ := List.mem_flatten.mp h
    obtain ⟨q, hq, rfl⟩ := List.mem_map.mp hl
    rcases List.mem_cons.mp hcl with rfl | hcq
    · exact Or.inr ⟨q, hq, Or.inl rfl⟩
    · exact Or.inr ⟨q, hq, Or.inr hcq⟩


theorem simpleNameChars (w : List Char) (rest : List (Char × List Char))
    (h : simpleNameOk w rest) :
    ∀ c ∈ mkSimpleName w rest, isLowerDigit c = true ∨ isSepC c = true := by
  intro c hc
  rcases memMkSimple w rest c hc with hcw | ⟨q, hq, hcq⟩
  · exact Or.inl (h.1.2 c hcw)
  · rcases hcq with rfl | hcq
    · rcases (h.2 q hq).1 with h1 | h1 <;> rw [h1] <;> exact Or.inr (by decide)
    · exact Or.inl ((h.2 q hq).2.2 c hcq)

theorem simpleNameNoUpper (w : List Char) (rest : List (Char × List Char))
    (h : simpleNameOk w rest) :
    ∀ c ∈ mkSimpleName w rest, isUpperA c = false := by
  intro c hc
  rcases simpleNameChars w rest h c hc with h1 | h1
  · exact ldNotUpper c h1
  · rw [Bool.eq_false_iff]
    intro hu
    rw [isSepCIff] at h1
    rw [isUpperAIff] at hu
    omega

theorem simpleNameNoDot (w : List Char) (rest : List (Char × List Char))
    (h : simpleNameOk w rest) : '.' ∉ mkSimpleName w rest := by
  intro hm
  rcases simpleNameChars w rest h '.' hm with h1 | h1
  · exact ldNotDot '.' h1 rfl
  · exact absurd h1 (by decide)

theorem mapDashMkSimple (w : List Char) (rest : List (Char × List Char))
    (h : simpleNameOk w rest) :
    (mkSimpleName w rest).map dashToSpace =
      w ++ ((rest.map (fun q => q.2)).map (fun b => ' ' :: b)).flatten := by
  induction rest generalizing w with
  | nil =>
    simp only [mkSimpleName, List.map_nil, List.flatten_nil, List.append_nil]
    exact dashToSpaceSepId w (fun c hc => ldNotSep c (h.1.2 c hc))
  | cons q rest2 ih =>
    obtain ⟨s, w2⟩ := q
    rw [mkSimpleConsEq]
    simp only [List.map_append, List.map_cons, List.flatten_cons]
    rw [dashToSpaceSepId w (fun c hc => ldNotSep c (h.1.2 c hc))]
    have hsep : dashToSpace s = ' ' := by
      have h1 := (h.2 (s, w2) (List.mem_cons_self _ _)).1
      simp only at h1
      rcases h1 with h1 | h1 <;> rw [h1] <;> rfl
    have hih := ih w2 ⟨⟨(h.2 (s, w2) (List.mem_cons_self _ _)).2.1,
      (h.2 (s, w2) (List.mem_cons_self _ _)).2.2⟩,
      fun q2 hq2 => h.2 q2 (List.mem_cons_of_mem _ hq2)⟩
    simp only [List.map_cons, hsep]
    rw [hih]
    simp

/-- The segmenter recovers exactly the words of a simple name. -/
theorem extractWordsMkSimple (w : List Char) (rest : List (Char × List Char))
    (h : simpleNameOk w rest) :
    extractWords (mkSimpleName w rest) = w :: rest.map (fun q => q.2) := by
  unfold extractWords
  rw [camelSplitId _ (noCamelPairOfNoUpper _ (simpleNameNoUpper w rest h))]
  rw [mapDashMkSimple w rest h]
  exact splitWsChain _ w h.1.1
    (fun c hc => wsOfSep c (ldNotSep c (h.1.2 c hc)))
    (fun b hb => by
      obtain ⟨q, hq, rfl⟩ := List.mem_map.mp hb
      exact ⟨(h.2 q hq).2.1,
        fun c hc => wsOfSep c (ldNotSep c ((h.2 q hq).2.2 c hc))⟩)

/-! ## Claim C2: code-validator side -/

theorem sepCOfUndDash (s : Char) (h : s = '_' ∨ s = '-') : isSepC s = true := by
  rcases h with rfl | rfl <;> decide

theorem replaceSepsAppend (w x : List Char) (hw : ∀ c ∈ w, isSepC c = false) :
    replaceSeps (w ++ x) = w ++ replaceSeps x := by
  induction w with
  | nil => rfl
  | cons c t ih =>
    simp only [List.cons_append, replaceSeps, List.append_eq]
    rw [hw c (List.mem_cons_self c t)]
    simp only [Bool.false_eq_true, if_false]
    rw [ih (fun d hd => hw d (List.mem_cons_of_mem c hd))]

theorem replaceSepsNonSep (w : List Char) (hw : ∀ c ∈ w, isSepC c = false) :
    replaceSeps w = w := by
  have h1 := replaceSepsAppend w [] hw
  rw [List.append_nil] at h1
  rw [h1, show replaceSeps [] = [] from rfl, List.append_nil]

theorem skipSepsUpperCons (c : Char) (x : List Char) (h : isSepC c = false) :
    skipSepsUpper (c :: x) = toUpperC c :: replaceSeps x := by
  simp only [skipSepsUpper, h, Bool.false_eq_true, if_false]

theorem replaceSepsSepCons (s : Char) (x : List Char) (h : isSepC s = true) :
    replaceSeps (s :: x) = skipSepsUpper x := by
  simp only [replaceSeps, h, if_true]

theorem replaceSepsSkipMk (rest : List (Char × List Char))
    (hrest : ∀ q ∈ rest, (q.1 = '_' ∨ q.1 = '-') ∧ q.2 ≠ [] ∧
      ∀ c ∈ q.2, isLowerDigit c = true) :
    (∀ w : List Char, (∀ c ∈ w, isLowerDigit c = true) →
      replaceSeps (mkSimpleName w rest) =
        w ++ (rest.map (fun q => capFirstW q.2)).flatten) ∧
    (∀ w : List Char, w ≠ [] → (∀ c ∈ w, isLowerDigit c = true) →
      skipSepsUpper (mkSimpleName w rest) =
        capFirstW w ++ (rest.map (fun q => capFirstW q.2)).flatten) := by
  induction rest with
  | nil =>
    constructor
    · intro w hw
      simp only [mkSimpleName, List.map_nil, List.flatten_nil, List.append_nil]
      exact replaceSepsNonSep w (fun c hc => ldNotSep c (hw c hc))
    · intro w hne hw
      cases w with
      | nil => exact absurd rfl hne
      | cons c t =>
        simp only [mkSimpleName, List.map_nil, List.flatten_nil, List.append_nil]
        rw [skipSepsUpperCons c t (ldNotSep c (hw c (List.mem_cons_self c t)))]
        rw [replaceSepsNonSep t
          (fun d hd => ldNotSep d (hw d (List.mem_cons_of_mem c hd)))]
        rfl
  | cons q rest2 ih =>
    obtain ⟨s, w2⟩ := q
    have hq := hrest (s, w2) (List.mem_cons_self _ _)
    simp only at hq
    have hih := ih (fun q2 hq2 => hrest q2 (List.mem_cons_of_mem _ hq2))
    constructor
    · intro w hw
      rw [mkSimpleConsEq,
        replaceSepsAppend w _ (fun c hc => ldNotSep c (hw c hc)),
        replaceSepsSepCons s _ (sepCOfUndDash s hq.1),
        hih.2 w2 hq.2.1 hq.2.2]
      simp
    · intro w hne hw
      cases w with
      | nil => exact absurd rfl hne
      | cons c t =>
        rw [mkSimpleConsEq]
        simp only [List.cons_append]
        rw [skipSepsUpperCons c _ (ldNotSep c (hw c (List.mem_cons_self c t))),
          replaceSepsAppend t _
            (fun d hd => ldNotSep d (hw d (List.mem_cons_of_mem c hd))),
          replaceSepsSepCons s _ (sepCOfUndDash s hq.1),
          hih.2 w2 hq.2.1 hq.2.2]
        simp [capFirstW]

theorem lowerFirstNotUpper (c : Char) (x : List Char) (h : isUpperA c = false) :
    lowerFirst (c :: x) = c :: x := by
  simp only [lowerFirst, h, Bool.false_eq_true, if_false]

theorem codeCamelMkSimple (w : List Char) (rest : List (Char × List Char))
    (h : simpleNameOk w rest) :
    convertToCamelCase (mkSimpleName w rest) =
      w ++ (rest.map (fun q => capFirstW q.2)).flatten := by
  unfold convertToCamelCase
  rw [(replaceSepsSkipMk rest h.2).1 w h.1.2]
  cases w with
  | nil => exact absurd rfl h.1.1
  | cons c t =>
    simp only [List.cons_append]
    exact lowerFirstNotUpper c _ (ldNotUpper c (h.1.2 c (List.mem_cons_self c t)))

theorem codePascalMkSimple (w : List Char) (rest : List (Char × List Char))
    (h : simpleNameOk w rest) :
    convertToPascalCase (mkSimpleName w rest) =
      capFirstW w ++ (rest.map (fun q => capFirstW q.2)).flatten := by
  unfold convertToPascalCase
  rw [(replaceSepsSkipMk rest h.2).1 w h.1.2]
  cases w with
  | nil => exact absurd rfl h.1.1
  | cons c t =>
    simp only [List.cons_append, upperFirst, capFirstW]
    by_cases hc : isLowerA c = true
    · rw [if_pos hc]
    · rw [if_neg (by simp [hc])]
      rw [toUpperCOfNotLower c (by rw [Bool.eq_false_iff]; exact hc)]

theorem collapseAppendNoClass (p : Char → Bool) (r : Char) (w x : List Char)
    (hw : ∀ c ∈ w, p c = false) :
    collapseRuns p r (w ++ x) = w ++ collapseRuns p r x := by
  induction w with
  | nil => rfl
  | cons c t ih =>
    simp only [List.cons_append, collapseRuns, List.append_eq]
    rw [hw c (List.mem_cons_self c t)]
    simp only [Bool.false_eq_true, if_false]
    rw [ih (fun d hd => hw d (List.mem_cons_of_mem c hd))]

theorem collapseNoClass (p : Char → Bool) (r : Char) (w : List Char)
    (hw : ∀ c ∈ w, p c = false) : collapseRuns p r w = w := by
  have h1 := collapseAppendNoClass p r w [] hw
  rw [List.append_nil] at h1
  rw [h1, show collapseRuns p r [] = [] from rfl, List.append_nil]

theorem skipRunCons (p : Char → Bool) (r : Char) (c : Char) (x : List Char)
    (h : p c = false) : skipRun p r (c :: x) = c :: collapseRuns p r x := by
  simp only [skipRun, h, Bool.false_eq_true, if_false]

theorem collapseRunsConsNeg (p : Char → Bool) (r c : Char) (x : List Char)
    (h : p c = false) : collapseRuns p r (c :: x) = c :: collapseRuns p r x := by
  simp only [collapseRuns, h, Bool.false_eq_true, if_false]

theorem collapseRunsConsPos (p : Char → Bool) (r c : Char) (x : List Char)
    (h : p c = true) : collapseRuns p r (c :: x) = r :: skipRun p r x := by
  simp only [collapseRuns, h, if_true]

theorem collapseMk (p : Char → Bool) (r : Char) (rest : List (Char × List Char))
    (hsep : ∀ q ∈ rest, p q.1 = true ∨ q.1 = r)
    (hne : ∀ q ∈ rest, q.2 ≠ [])
    (hwords : ∀ q ∈ rest, ∀ c ∈ q.2, p c = false) :
    ∀ w : List Char, (∀ c ∈ w, p c = false) →
      collapseRuns p r (mkSimpleName w rest) =
        w ++ (rest.map (fun q => r :: q.2)).flatten := by
  induction rest with
  | nil =>
    intro w hw
    simp only [mkSimpleName, List.map_nil, List.flatten_nil, List.append_nil]
    exact collapseNoClass p r w hw
  | cons q rest2 ih =>
    obtain ⟨s, w2⟩ := q
    have hs := hsep (s, w2) (List.mem_cons_self _ _)
    have hw2ne := hne (s, w2) (List.mem_cons_self _ _)
    have hw2 := hwords (s, w2) (List.mem_cons_self _ _)
    simp only at hs hw2ne hw2
    have hih := ih (fun q2 hq2 => hsep q2 (List.mem_cons_of_mem _ hq2))
      (fun q2 hq2 => hne q2 (List.mem_cons_of_mem _ hq2))
      (fun q2 hq2 => hwords q2 (List.mem_cons_of_mem _ hq2))
    intro w hw
    rw [mkSimpleConsEq, collapseAppendNoClass p r w _ hw]
    cases w2 with
    | nil => exact absurd rfl hw2ne
    | cons c2 t2 =>
      have hmk : mkSimpleName (c2 :: t2) rest2 = c2 :: mkSimpleName t2 rest2 := by
        simp [mkSimpleName]
      rcases hs with hs | hs
      · rw [collapseRunsConsPos p r s _ hs, hmk,
          skipRunCons p r c2 _ (hw2 c2 (List.mem_cons_self c2 t2)),
          hih t2 (fun d hd => hw2 d (List.mem_cons_of_mem c2 hd))]
        simp
      · by_cases hsp : p s = true
        · rw [collapseRunsConsPos p r s _ hsp, hmk,
            skipRunCons p r c2 _ (hw2 c2 (List.mem_cons_self c2 t2)),
            hih t2 (fun d hd => hw2 d (List.mem_cons_of_mem c2 hd))]
          simp
        · rw [Bool.not_eq_true] at hsp
          rw [collapseRunsConsNeg p r s _ hsp, hih (c2 :: t2) hw2, hs]
          simp

/-! ## Claim C2: canonical forms and the claim -/

theorem insertBeforeUpperId (r : Char) (l : List Char)
    (h : ∀ c ∈ l, isUpperA c = false) : insertBeforeUpper r l = l := by
  induction l with
  | nil => rfl
  | cons c t ih =>
    simp only [insertBeforeUpper, List.map_cons, List.flatten_cons]
    rw [h c (List.mem_cons_self c t)]
    simp only [Bool.false_eq_true, if_false, List.singleton_append]
    have := ih (fun d hd => h d (List.mem_cons_of_mem c hd))
    simp only [insertBeforeUpper] at this
    rw [this]

theorem stripLeadingNe (r c : Char) (x : List Char) (h : c ≠ r) :
    stripLeading r (c :: x) = c :: x := by
  simp only [stripLeading]
  rw [if_neg (by simp [h])]

theorem ldNotDashWs (c : Char) (h : isLowerDigit c = true) : isDashWs c = false := by
  have hs := ldNotSep c h
  simp only [isDashWs, Bool.or_eq_false_iff]
  exact ⟨by simp [sepNotDash c hs], wsOfSep c hs⟩

theorem ldNotUndWs (c : Char) (h : isLowerDigit c = true) : isUndWs c = false := by
  have hs := ldNotSep c h
  simp only [isUndWs, Bool.or_eq_false_iff]
  exact ⟨by simp [sepNotUnd c hs], wsOfSep c hs⟩

theorem chainSepNoUpper (sep : Char) (hsep : isUpperA sep = false)
    (w : List Char) (rest : List (Char × List Char))
    (hw : ∀ c ∈ w, isUpperA c = false)
    (hrest : ∀ q ∈ rest, ∀ c ∈ q.2, isUpperA c = false) :
    ∀ c ∈ w ++ (rest.map (fun q => sep :: q.2)).flatten, isUpperA c = false := by
  intro c hc
  rcases List.mem_append.mp hc with h1 | h1
  · exact hw c h1
  · obtain ⟨l, hl, hcl⟩ := List.mem_flatten.mp h1
    obtain ⟨q, hq, rfl⟩ := List.mem_map.mp hl
    rcases List.mem_cons.mp hcl with rfl | hcq
    · exact hsep
    · exact hrest q hq c hcq

theorem upperWChainSep (r : Char) (hr : isLowerA r = false)
    (rest : List (Char × List Char)) :
    upperW ((rest.map (fun q => r :: q.2)).flatten) =
      (rest.map (fun q => r :: upperW q.2)).flatten := by
  induction rest with
  | nil => rfl
  | cons q t ih =>
    simp only [List.map_cons, List.flatten_cons]
    rw [show upperW ((r :: q.2) ++ ((t.map (fun q => r :: q.2)).flatten)) =
      upperW (r :: q.2) ++ upperW ((t.map (fun q => r :: q.2)).flatten) from
        List.map_append _ _ _, ih]
    simp only [upperW, List.map_cons]
    rw [toUpperCOfNotLower r hr]

theorem intercalateSepChain (sep : Char) (a : List Char) (t : List (List Char)) :
    List.intercalate [sep] (a :: t) = a ++ (t.map (fun b => sep :: b)).flatten := by
  induction t generalizing a with
  | nil => simp [intercalateSingleL]
  | cons b t2 ih =>
    rw [intercalateConsCons, ih b]
    simp

theorem ldLowerWId (w : List Char) (h : ∀ c ∈ w, isLowerDigit c = true) :
    lowerW w = w :=
  lowerWIdNotUpper w (fun c hc => ldNotUpper c (h c hc))

theorem capEqCapFirstLd (w : List Char) (h : ∀ c ∈ w, isLowerDigit c = true) :
    capitalize w = capFirstW w := by
  cases w with
  | nil => rfl
  | cons c t =>
    simp only [capitalize, capFirstW]
    rw [ldLowerWId t (fun d hd => h d (List.mem_cons_of_mem c hd))]

theorem mapSndCapEq (rest : List (Char × List Char))
    (h : ∀ q ∈ rest, ∀ c ∈ q.2, isLowerDigit c = true) :
    (rest.map (fun q => q.2)).map capitalize =
      rest.map (fun q => capFirstW q.2) := by
  induction rest with
  | nil => rfl
  | cons q t ih =>
    simp only [List.map_cons]
    rw [capEqCapFirstLd q.2 (h q (List.mem_cons_self q t)),
      ih (fun q2 hq2 => h q2 (List.mem_cons_of_mem q hq2))]

theorem mapSndLowerWId (rest : List (Char × List Char))
    (h : ∀ q ∈ rest, ∀ c ∈ q.2, isLowerDigit c = true) :
    (rest.map (fun q => q.2)).map lowerW = rest.map (fun q => q.2) := by
  induction rest with
  | nil => rfl
  | cons q t ih =>
    simp only [List.map_cons]
    rw [ldLowerWId q.2 (h q (List.mem_cons_self q t)),
      ih (fun q2 hq2 => h q2 (List.mem_cons_of_mem q hq2))]

theorem codeSnakeMkSimple (w : List Char) (rest : List (Char × List Char))
    (h : simpleNameOk w rest) :
    convertToSnakeCase (mkSimpleName w rest) =
      w ++ (rest.map (fun q => '_' :: q.2)).flatten := by
  unfold convertToSnakeCase
  rw [insertBeforeUpperId '_' _ (simpleNameNoUpper w rest h)]
  rw [collapseMk isDashWs '_' rest
    (fun q hq => by
      rcases (h.2 q hq).1 with h1 | h1
      · exact Or.inr h1
      · exact Or.inl (by rw [h1]; decide))
    (fun q hq => (h.2 q hq).2.1)
    (fun q hq c hc => ldNotDashWs c ((h.2 q hq).2.2 c hc))
    w (fun c hc => ldNotDashWs c (h.1.2 c hc))]
  cases w with
  | nil => exact absurd rfl h.1.1
  | cons c t =>
    simp only [List.cons_append]
    rw [stripLeadingNe '_' c _
      (sepNotUnd c (ldNotSep c (h.1.2 c (List.mem_cons_self c t))))]
    exact lowerWIdNotUpper _ (by
      have := chainSepNoUpper '_' (by decide) (c :: t) rest
        (fun d hd => ldNotUpper d (h.1.2 d hd))
        (fun q hq d hd => ldNotUpper d ((h.2 q hq).2.2 d hd))
      simpa using this)

theorem codeKebabMkSimple (w : List Char) (rest : List (Char × List Char))
    (h : simpleNameOk w rest) :
    convertToKebabCase (mkSimpleName w rest) =
      w ++ (rest.map (fun q => '-' :: q.2)).flatten := by
  unfold convertToKebabCase
  rw [insertBeforeUpperId '-' _ (simpleNameNoUpper w rest h)]
  rw [collapseMk isUndWs '-' rest
    (fun q hq => by
      rcases (h.2 q hq).1 with h1 | h1
      · exact Or.inl (by rw [h1]; decide)
      · exact Or.inr h1)
    (fun q hq => (h.2 q hq).2.1)
    (fun q hq c hc => ldNotUndWs c ((h.2 q hq).2.2 c hc))
    w (fun c hc => ldNotUndWs c (h.1.2 c hc))]
  cases w with
  | nil => exact absurd rfl h.1.1
  | cons c t =>
    simp only [List.cons_append]
    rw [stripLeadingNe '-' c _
      (sepNotDash c (ldNotSep c (h.1.2 c (List.mem_cons_self c t))))]
    exact lowerWIdNotUpper _ (by
      have := chainSepNoUpper '-' (by decide) (c :: t) rest
        (fun d hd => ldNotUpper d (h.1.2 d hd))
        (fun q hq d hd => ldNotUpper d ((h.2 q hq).2.2 d hd))
      simpa using this)

theorem codeConstantMkSimple (w : List Char) (rest : List (Char × List Char))
    (h : simpleNameOk w rest) :
    convertToConstantCase (mkSimpleName w rest) =
      upperW w ++ (rest.map (fun q => '_' :: upperW q.2)).flatten := by
  unfold convertToConstantCase
  rw [insertBeforeUpperId '_' _ (simpleNameNoUpper w rest h)]
  rw [collapseMk isDashWs '_' rest
    (fun q hq => by
      rcases (h.2 q hq).1 with h1 | h1
      · exact Or.inr h1
      · exact Or.inl (by rw [h1]; decide))
    (fun q hq => (h.2 q hq).2.1)
    (fun q hq c hc => ldNotDashWs c ((h.2 q hq).2.2 c hc))
    w (fun c hc => ldNotDashWs c (h.1.2 c hc))]
  cases w with
  | nil => exact absurd rfl h.1.1
  | cons c t =>
    simp only [List.cons_append]
    rw [stripLeadingNe '_' c _
      (sepNotUnd c (ldNotSep c (h.1.2 c (List.mem_cons_self c t))))]
    show upperW ((c :: t) ++ (rest.map (fun q => '_' :: q.2)).flatten) = _
    rw [show upperW ((c :: t) ++ (rest.map (fun q => '_' :: q.2)).flatten) =
      upperW (c :: t) ++ upperW ((rest.map (fun q => '_' :: q.2)).flatten) from
        List.map_append _ _ _,
      upperWChainSep '_' (by decide) rest]

theorem namingCamelMkSimple (w : List Char) (rest : List (Char × List Char))
    (h : simpleNameOk w rest) :
    convertToConvention (mkSimpleName w rest) camelCase =
      w ++ (rest.map (fun q => capFirstW q.2)).flatten := by
  rw [convertToConvention, getBaseNameNoDot _ (simpleNameNoDot w rest h),
    extractWordsMkSimple w rest h]
  show lowerW w ++ ((rest.map (fun q => q.2)).map capitalize).flatten = _
  rw [ldLowerWId w h.1.2, mapSndCapEq rest (fun q hq => (h.2 q hq).2.2)]

theorem namingPascalMkSimple (w : List Char) (rest : List (Char × List Char))
    (h : simpleNameOk w rest) :
    convertToConvention (mkSimpleName w rest) pascalCase =
      capFirstW w ++ (rest.map (fun q => capFirstW q.2)).flatten := by
  rw [convertToConvention, getBaseNameNoDot _ (simpleNameNoDot w rest h),
    extractWordsMkSimple w rest h]
  show capitalize w ++ ((rest.map (fun q => q.2)).map capitalize).flatten = _
  rw [capEqCapFirstLd w h.1.2, mapSndCapEq rest (fun q hq => (h.2 q hq).2.2)]

theorem namingSnakeMkSimple (w : List Char) (rest : List (Char × List Char))
    (h : simpleNameOk w rest) :
    convertToConvention (mkSimpleName w rest) snakeCase =
      w ++ (rest.map (fun q => '_' :: q.2)).flatten := by
  rw [convertToConvention, getBaseNameNoDot _ (simpleNameNoDot w rest h),
    extractWordsMkSimple w rest h]
  show List.intercalate ['_'] ((w :: rest.map (fun q => q.2)).map lowerW) = _
  simp only [List.map_cons]
  rw [ldLowerWId w h.1.2, mapSndLowerWId rest (fun q hq => (h.2 q hq).2.2),
    intercalateSepChain '_' w _, List.map_map]
  rfl

theorem namingKebabMkSimple (w : List Char) (rest : List (Char × List Char))
    (h : simpleNameOk w rest) :
    convertToConvention (mkSimpleName w rest) kebabCase =
      w ++ (rest.map (fun q => '-' :: q.2)).flatten := by
  rw [convertToConvention, getBaseNameNoDot _ (simpleNameNoDot w rest h),
    extractWordsMkSimple w rest h]
  show List.intercalate ['-'] ((w :: rest.map (fun q => q.2)).map lowerW) = _
  simp only [List.map_cons]
  rw [ldLowerWId w h.1.2, mapSndLowerWId rest (fun q hq => (h.2 q hq).2.2),
    intercalateSepChain '-' w _, List.map_map]
  rfl

theorem namingConstantMkSimple (w : List Char) (rest : List (Char × List Char))
    (h : simpleNameOk w rest) :
    convertToConvention (mkSimpleName w rest) upperSnakeCase =
      upperW w ++ (rest.map (fun q => '_' :: upperW q.2)).flatten := by
  rw [convertToConvention, getBaseNameNoDot _ (simpleNameNoDot w rest h),
    extractWordsMkSimple w rest h]
  show List.intercalate ['_'] ((w :: rest.map (fun q => q.2)).map upperW) = _
  simp only [List.map_cons]
  rw [intercalateSepChain '_' (upperW w) _, List.map_map, List.map_map]
  rfl

/-- C2, counterexample: the regex-replace converter of `CodeValidator`
and the segment-and-join converter of `NamingValidator` disagree: at
name `"AB"` with camelCase the former yields `"aB"` (it only lowers the
first character), the latter `"ab"` (it lowercases the whole first
word). -/
theorem claimC2Counterexample :
    codeConvertToConvention "AB".data camelCase ≠
      convertToConvention "AB".data camelCase ∧
    codeConvertToConvention "AB".data camelCase = "aB".data ∧
    convertToConvention "AB".data camelCase = "ab".data :=
  ⟨by decide, by decide, by decide⟩

/-- C2 (amended): the two converters agree on every name built from
nonempty words over lowercase letters and digits joined by single `'_'`
or `'-'` separators, for every one of the five conventions. -/
theorem claimC2Amended (w : List Char) (rest : List (Char × List Char))
    (conv : Convention) (h : simpleNameOk w rest) :
    codeConvertToConvention (mkSimpleName w rest) conv =
      convertToConvention (mkSimpleName w rest) conv := by
  cases conv
  · show convertToCamelCase (mkSimpleName w rest) = _
    rw [codeCamelMkSimple w rest h, namingCamelMkSimple w rest h]
  · show convertToSnakeCase (mkSimpleName w rest) = _
    rw [codeSnakeMkSimple w rest h, namingSnakeMkSimple w rest h]
  · show convertToKebabCase (mkSimpleName w rest) = _
    rw [codeKebabMkSimple w rest h, namingKebabMkSimple w rest h]
  · show convertToPascalCase (mkSimpleName w rest) = _
    rw [codePascalMkSimple w rest h, namingPascalMkSimple w rest h]
  · show convertToConstantCase (mkSimpleName w rest) = _
    rw [codeConstantMkSimple w rest h, namingConstantMkSimple w rest h]

/-- Witness for C2 (amended) at `"api_url"` under snake_case and
`"file-one"` under camelCase. -/
theorem claimC2Witness :
    codeConvertToConvention (mkSimpleName "api".data [('_', "url".data)])
        snakeCase =
      convertToConvention (mkSimpleName "api".data [('_', "url".data)])
        snakeCase ∧
    codeConvertToConvention (mkSimpleName "file".data [('-', "one".data)])
        camelCase =
      convertToConvention (mkSimpleName "file".data [('-', "one".data)])
        camelCase :=
  ⟨claimC2Amended "api".data [('_', "url".data)] snakeCase
      ⟨⟨by decide, by decide⟩, by decide⟩,
   claimC2Amended "file".data [('-', "one".data)] camelCase
      ⟨⟨by decide, by decide⟩, by decide⟩⟩

/-! ## Claim C5 -/


/-- The nested maximum of five naturals (and 0) is attained. -/
theorem max5choice (a b c d e : Nat) :
    max a (max b (max c (max d (max e 0)))) = a ∨
    max a (max b (max c (max d (max e 0)))) = b ∨
    max a (max b (max c (max d (max e 0)))) = c ∨
    max a (max b (max c (max d (max e 0)))) = d ∨
    max a (max b (max c (max d (max e 0)))) = e ∨
    max a (max b (max c (max d (max e 0)))) = 0 := by
  rcases max_choice a (max b (max c (max d (max e 0)))) with h | h
  · exact Or.inl h
  rw [h]
  rcases max_choice b (max c (max d (max e 0))) with h2 | h2
  · exact Or.inr (Or.inl h2)
  rw [h2]
  rcases max_choice c (max d (max e 0)) with h3 | h3
  · exact Or.inr (Or.inr (Or.inl h3))
  rw [h3]
  rcases max_choice d (max e 0) with h4 | h4
  · exact Or.inr (Or.inr (Or.inr (Or.inl h4)))
  rw [h4]
  rcases max_choice e 0 with h5 | h5
  · exact Or.inr (Or.inr (Or.inr (Or.inr (Or.inl h5))))
  · exact Or.inr (Or.inr (Or.inr (Or.inr (Or.inr h5))))

/-- Argmax characterization of one `find?` step chain over the five
scores.  `A` abbreviates the folded maximum. -/
theorem claimC5Detect :
    (∀ (names : List (List Char)) (conv : Convention),
      detectScore names conv =
        (names.filter (fun n => matchesConvention (getBaseName n) conv)).length) ∧
    (∀ names : List (List Char),
      (detectConvention names = none ↔ ∀ conv, detectScore names conv = 0)) ∧
    (∀ (names : List (List Char)) (conv : Convention),
      detectConvention names = some conv →
        (∀ c2, detectScore names c2 ≤ detectScore names conv) ∧
        (∀ c2, detectScore names c2 = detectScore names conv →
          conventionIdx conv ≤ conventionIdx c2)) ∧
    detectConvention
      ["fileOne.ts".data, "fileTwo.ts".data, "file-three.ts".data] =
      some camelCase := by
  have key : ∀ names : List (List Char),
      (detectConvention names = none ↔ ∀ conv, detectScore names conv = 0) ∧
      (∀ conv, detectConvention names = some conv →
        (∀ c2, detectScore names c2 ≤ detectScore names conv) ∧
        (∀ c2, detectScore names c2 = detectScore names conv →
          conventionIdx conv ≤ conventionIdx c2)) := by
    intro names
    have hM : (conventionOrder.map (detectScore names)).foldr Nat.max 0 =
        Nat.max (detectScore names camelCase)
          (Nat.max (detectScore names snakeCase)
            (Nat.max (detectScore names kebabCase)
              (Nat.max (detectScore names pascalCase)
                (Nat.max (detectScore names upperSnakeCase) 0)))) := by
      simp [conventionOrder]
    have hb1 : detectScore names camelCase ≤
        (conventionOrder.map (detectScore names)).foldr Nat.max 0 := by
      rw [hM]; exact Nat.le_max_left _ _
    have hb2 : detectScore names snakeCase ≤
        (conventionOrder.map (detectScore names)).foldr Nat.max 0 := by
      rw [hM]
      exact le_trans (Nat.le_max_left _ _) (Nat.le_max_right _ _)
    have hb3 : detectScore names kebabCase ≤
        (conventionOrder.map (detectScore names)).foldr Nat.max 0 := by
      rw [hM]
      exact le_trans (le_trans (Nat.le_max_left _ _) (Nat.le_max_right _ _))
        (Nat.le_max_right _ _)
    have hb4 : detectScore names pascalCase ≤
        (conventionOrder.map (detectScore names)).foldr Nat.max 0 := by
      rw [hM]
      exact le_trans (le_trans (le_trans (Nat.le_max_left _ _)
        (Nat.le_max_right _ _)) (Nat.le_max_right _ _)) (Nat.le_max_right _ _)
    have hb5 : detectScore names upperSnakeCase ≤
        (conventionOrder.map (detectScore names)).foldr Nat.max 0 := by
      rw [hM]
      exact le_trans (le_trans (le_trans (le_trans (Nat.le_max_left _ 0)
        (Nat.le_max_right _ _)) (Nat.le_max_right _ _)) (Nat.le_max_right _ _))
        (Nat.le_max_right _ _)
    have hub : (conventionOrder.map (detectScore names)).foldr Nat.max 0 ≤
        detectScore names camelCase + detectScore names snakeCase +
        detectScore names kebabCase + detectScore names pascalCase +
        detectScore names upperSnakeCase := by
      rw [hM]
      refine Nat.max_le.mpr ⟨by omega, Nat.max_le.mpr ⟨by omega,
        Nat.max_le.mpr ⟨by omega, Nat.max_le.mpr ⟨by omega,
          Nat.max_le.mpr ⟨by omega, by omega⟩⟩⟩⟩⟩
    have hatt : (conventionOrder.map (detectScore names)).foldr Nat.max 0 =
          detectScore names camelCase ∨
        (conventionOrder.map (detectScore names)).foldr Nat.max 0 =
          detectScore names snakeCase ∨
        (conventionOrder.map (detectScore names)).foldr Nat.max 0 =
          detectScore names kebabCase ∨
        (conventionOrder.map (detectScore names)).foldr Nat.max 0 =
          detectScore names pascalCase ∨
        (conventionOrder.map (detectScore names)).foldr Nat.max 0 =
          detectScore names upperSnakeCase ∨
        (conventionOrder.map (detectScore names)).foldr Nat.max 0 = 0 := by
      rw [hM]
      exact max5choice _ _ _ _ _
    rw [detectConvention]
    by_cases h0 : (conventionOrder.map (detectScore names)).foldr Nat.max 0 = 0
    · rw [if_pos h0]
      refine ⟨⟨fun _ conv => ?_, fun _ => rfl⟩, fun conv h => by simp at h⟩
      cases conv <;> omega
    · rw [if_neg h0]
      rw [show conventionOrder =
        camelCase :: snakeCase :: kebabCase :: pascalCase ::
          upperSnakeCase :: [] from rfl]
      by_cases h1 : detectScore names camelCase =
          (conventionOrder.map (detectScore names)).foldr Nat.max 0
      · rw [List.find?_cons_of_pos _ (by rw [decide_eq_true_eq]; exact h1)]
        refine ⟨⟨fun h => by simp at h, fun hz => ?_⟩, fun conv h => ?_⟩
        · exfalso
          have z1 := hz camelCase
          have z2 := hz snakeCase
          have z3 := hz kebabCase
          have z4 := hz pascalCase
          have z5 := hz upperSnakeCase
          omega
        · have hc : conv = camelCase := by
            injection h with h2
            exact h2.symm
          subst hc
          refine ⟨fun c2 => ?_, fun c2 _ => ?_⟩
          · cases c2 <;> omega
          · cases c2 <;> simp [conventionIdx]
      · rw [List.find?_cons_of_neg _ (by rw [decide_eq_true_eq]; exact h1)]
        by_cases h2 : detectScore names snakeCase =
            (conventionOrder.map (detectScore names)).foldr Nat.max 0
        · rw [List.find?_cons_of_pos _ (by rw [decide_eq_true_eq]; exact h2)]
          refine ⟨⟨fun h => by simp at h, fun hz => ?_⟩, fun conv h => ?_⟩
          · exfalso
            have z1 := hz camelCase
            have z2 := hz snakeCase
            have z3 := hz kebabCase
            have z4 := hz pascalCase
            have z5 := hz upperSnakeCase
            omega
          · have hc : conv = snakeCase := by
              injection h with h3
              exact h3.symm
            subst hc
            refine ⟨fun c2 => ?_, fun c2 hc2 => ?_⟩
            · cases c2 <;> omega
            · cases c2 <;> simp only [conventionIdx] <;> omega
        · rw [List.find?_cons_of_neg _ (by rw [decide_eq_true_eq]; exact h2)]
          by_cases h3 : detectScore names kebabCase =
              (conventionOrder.map (detectScore names)).foldr Nat.max 0
          · rw [List.find?_cons_of_pos _ (by rw [decide_eq_true_eq]; exact h3)]
            refine ⟨⟨fun h => by simp at h, fun hz => ?_⟩, fun conv h => ?_⟩
            · exfalso
              have z1 := hz camelCase
              have z2 := hz snakeCase
              have z3 := hz kebabCase
              have z4 := hz pascalCase
              have z5 := hz upperSnakeCase
              omega
            · have hc : conv = kebabCase := by
                injection h with h4
                exact h4.symm
              subst hc
              refine ⟨fun c2 => ?_, fun c2 hc2 => ?_⟩
              · cases c2 <;> omega
              · cases c2 <;> simp only [conventionIdx] <;> omega
          · rw [List.find?_cons_of_neg _ (by rw [decide_eq_true_eq]; exact h3)]
            by_cases h4 : detectScore names pascalCase =
                (conventionOrder.map (detectScore names)).foldr Nat.max 0
            · rw [List.find?_cons_of_pos _ (by rw [decide_eq_true_eq]; exact h4)]
              refine ⟨⟨fun h => by simp at h, fun hz => ?_⟩, fun conv h => ?_⟩
              · exfalso
                have z1 := hz camelCase
                have z2 := hz snakeCase
                have z3 := hz kebabCase
                have z4 := hz pascalCase
                have z5 := hz upperSnakeCase
                omega
              · have hc : conv = pascalCase := by
                  injection h with h5
                  exact h5.symm
                subst hc
                refine ⟨fun c2 => ?_, fun c2 hc2 => ?_⟩
                · cases c2 <;> omega
                · cases c2 <;> simp only [conventionIdx] <;> omega
            · rw [List.find?_cons_of_neg _ (by rw [decide_eq_true_eq]; exact h4)]
              by_cases h5 : detectScore names upperSnakeCase =
                  (conventionOrder.map (detectScore names)).foldr Nat.max 0
              · rw [List.find?_cons_of_pos _
                  (by rw [decide_eq_true_eq]; exact h5)]
                refine ⟨⟨fun h => by simp at h, fun hz => ?_⟩, fun conv h => ?_⟩
                · exfalso
                  have z1 := hz camelCase
                  have z2 := hz snakeCase
                  have z3 := hz kebabCase
                  have z4 := hz pascalCase
                  have z5 := hz upperSnakeCase
                  omega
                · have hc : conv = upperSnakeCase := by
                    injection h with h6
                    exact h6.symm
                  subst hc
                  refine ⟨fun c2 => ?_, fun c2 hc2 => ?_⟩
                  · cases c2 <;> omega
                  · cases c2 <;> simp only [conventionIdx] <;> omega
              · exfalso
                omega
  refine ⟨?_, fun names => (key names).1, fun names conv => (key names).2 conv, ?_⟩
  · intro names conv
    rw [detectScore, List.countP_eq_length_filter]
  · decide

/-! ## Claim C6 -/

/-- C6: for every identifier and fully-populated configuration,
`isValid` is exactly the membership test of the name against the
expected convention's pattern, and `suggestedName` is present iff
`isValid` is false, in which case it is the conversion to the expected
convention; plus the two concrete scenarios of the claim. -/
theorem claimC6Validator :
    (∀ (identifier : CodeIdentifier) (config : CodeConventionConfig),
      (validateIdentifier identifier config).isValid =
        codeValidateConvention identifier.name
          (getExpectedConvention identifier config) ∧
      (validateIdentifier identifier config).suggestedName =
        (if codeValidateConvention identifier.name
            (getExpectedConvention identifier config) = true then none
         else some (codeConvertToConvention identifier.name
            (getExpectedConvention identifier config)))) ∧
    (validateIdentifier
        ⟨"process_payment".data, IdCategory.funcDecl, 1, 0, "a.ts".data,
          false, false⟩
        ⟨camelCase, camelCase, pascalCase, upperSnakeCase, pascalCase,
          pascalCase, pascalCase, pascalCase⟩).isValid = false ∧
    (validateIdentifier
        ⟨"process_payment".data, IdCategory.funcDecl, 1, 0, "a.ts".data,
          false, false⟩
        ⟨camelCase, camelCase, pascalCase, upperSnakeCase, pascalCase,
          pascalCase, pascalCase, pascalCase⟩).suggestedName =
      some "processPayment".data ∧
    (validateIdentifier
        ⟨"MAX_RETRY".data, IdCategory.constDecl, 1, 0, "a.ts".data,
          false, false⟩
        ⟨camelCase, camelCase, pascalCase, upperSnakeCase, pascalCase,
          pascalCase, pascalCase, pascalCase⟩).isValid = true ∧
    (validateIdentifier
        ⟨"MAX_RETRY".data, IdCategory.constDecl, 1, 0, "a.ts".data,
          false, false⟩
        ⟨camelCase, camelCase, pascalCase, upperSnakeCase, pascalCase,
          pascalCase, pascalCase, pascalCase⟩).suggestedName = none := by
  refine ⟨fun i cfg => ?_, by decide, by decide, by decide, by decide⟩
  rw [validateIdentifier]
  by_cases h : codeValidateConvention i.name (getExpectedConvention i cfg) = true
  · simp [h]
  · rw [Bool.not_eq_true] at h
    simp [h]

/-! ## Claim C10 -/

/-- C10: when the lowercased, extension-stripped base name is in the
exceptions list, `validateName` returns valid with no expected name for
every convention, and `suggestName` returns the original name unchanged
with confidence exactly 1. -/
theorem claimC10Exceptions :
    ∀ (name : List Char) (conv : Convention) (exceptions : List (List Char)),
      lowerW (getBaseName name) ∈ exceptions →
      validateName name conv exceptions =
        ⟨true, none, conv⟩ ∧
      suggestName name conv exceptions = ⟨name, name, conv, 1⟩ := by
  intro name conv exceptions h
  constructor
  · rw [validateName]
    rw [if_pos (List.elem_iff.mpr h)]
  · rw [suggestName]
    rw [if_pos (List.elem_iff.mpr h)]

/-- Witness for C10: `"MyFile.ts"` with exceptions list `["myfile"]`. -/
theorem claimC10Witness :
    validateName "MyFile.ts".data camelCase ["myfile".data] =
      ⟨true, none, camelCase⟩ ∧
    suggestName "MyFile.ts".data camelCase ["myfile".data] =
      ⟨"MyFile.ts".data, "MyFile.ts".data, camelCase, 1⟩ :=
  claimC10Exceptions "MyFile.ts".data camelCase ["myfile".data] (by decide)

/-! ## Classifier invariants (claims C4, C7, C8) -/


theorem reactStartsUpper (name : List Char) (n : Option BabelNode)
    (h : isReactComponent name n = true) : startsUpper name = true := by
  rw [isReactComponent.eq_def] at h
  by_cases hs : startsUpper name = true
  · exact hs
  · rw [Bool.not_eq_true] at hs
    rw [hs] at h
    simp at h

theorem pushInv (fp : List Char) (b : Bool) (d : Declarator) :
    ∀ i ∈ declaratorIdent fp b d, IdentInv i := by
  obtain ⟨id, loc, init⟩ := d
  cases id with
  | none => simp [declaratorIdent]
  | some name =>
    intro i hi
    simp only [declaratorIdent, List.mem_singleton] at hi
    subst hi
    by_cases hc : isConstantName name = true
    · simp only [hc, if_true]
      refine ⟨fun h => by simp at h, fun h => by simp at h, fun _ => ⟨hc, rfl⟩⟩
    · rw [Bool.not_eq_true] at hc
      simp only [hc, Bool.false_eq_true, if_false]
      refine ⟨fun h => ⟨Or.inl rfl, reactStartsUpper name init h⟩,
        fun _ => hc, fun h => by simp at h⟩

theorem exportedDeclPushesInv (fp : List Char) (b : Bool) :
    ∀ (ds : List Declarator), ∀ i ∈ exportedDeclPushes fp b ds, IdentInv i := by
  intro ds
  induction ds with
  | nil => simp [exportedDeclPushes]
  | cons d t ih =>
    intro i hi
    simp only [exportedDeclPushes] at hi
    rcases List.mem_append.mp hi with h | h
    · exact pushInv fp b d i h
    · exact ih i h

theorem extractDeclPushesInv (fp : List Char) :
    ∀ (ds : List Declarator), ∀ i ∈ extractDeclPushes fp ds, IdentInv i := by
  intro ds
  induction ds with
  | nil => simp [extractDeclPushes]
  | cons d t ih =>
    intro i hi
    simp only [extractDeclPushes] at hi
    rcases List.mem_append.mp hi with h | h
    · exact pushInv fp false d i h
    · exact ih i h

theorem exportedIdsInv (fp : List Char) (b : Bool) (d : BabelNode) :
    ∀ i ∈ extractExportedIds fp b d, IdentInv i := by
  cases d with
  | variableDeclaration decls => exact exportedDeclPushesInv fp b decls
  | functionDeclaration id loc children =>
    cases id with
    | none => simp [extractExportedIds]
    | some name =>
      intro i hi
      simp only [extractExportedIds, List.mem_singleton] at hi
      subst hi
      refine ⟨fun h => ⟨Or.inr rfl, reactStartsUpper name
        (some (BabelNode.functionDeclaration (some name) loc children))
        (by exact h)⟩, fun h => by simp at h, fun h => by simp at h⟩
  | classDeclaration id loc children =>
    cases id with
    | none => simp [extractExportedIds]
    | some name =>
      intro i hi
      simp only [extractExportedIds, List.mem_singleton] at hi
      subst hi
      exact ⟨fun h => by simp at h, fun h => by simp at h, fun h => by simp at h⟩
  | tsInterfaceDeclaration id loc children =>
    cases id with
    | none => simp [extractExportedIds]
    | some name =>
      intro i hi
      simp only [extractExportedIds, List.mem_singleton] at hi
      subst hi
      exact ⟨fun h => by simp at h, fun h => by simp at h, fun h => by simp at h⟩
  | tsTypeAliasDeclaration id loc children =>
    cases id with
    | none => simp [extractExportedIds]
    | some name =>
      intro i hi
      simp only [extractExportedIds, List.mem_singleton] at hi
      subst hi
      exact ⟨fun h => by simp at h, fun h => by simp at h, fun h => by simp at h⟩
  | tsEnumDeclaration id loc children => simp [extractExportedIds]
  | exportNamedDeclaration decl children => simp [extractExportedIds]
  | exportDefaultDeclaration decl children => simp [extractExportedIds]
  | arrowFunctionExpression children => simp [extractExportedIds]
  | functionExpression children => simp [extractExportedIds]
  | otherNode children => simp [extractExportedIds]

theorem extractIdsInv (fp : List Char) :
    ∀ t : BabelNode, ∀ i ∈ extractIds fp t, IdentInv i := by
  refine extractIds.induct fp
    (fun t => ∀ i ∈ extractIds fp t, IdentInv i)
    (fun l => ∀ i ∈ extractIdsList fp l, IdentInv i)
    (fun ds => ∀ i ∈ extractDeclInits fp ds, IdentInv i)
    ?_ ?_ ?_ ?_ ?_ ?_ ?_ ?_ ?_ ?_ ?_ ?_ ?_ ?_ ?_ ?_ ?_ ?_
  · intro decls ih i hi
    simp only [extractIds] at hi
    rcases List.mem_append.mp hi with h | h
    · exact extractDeclPushesInv fp decls i h
    · exact ih i h
  · intro id loc children ih i hi
    simp only [extractIds] at hi
    rcases List.mem_append.mp hi with h | h
    · cases id with
      | none => simp at h
      | some name =>
        simp only [List.mem_singleton] at h
        subst h
        exact ⟨fun h2 => ⟨Or.inr rfl, reactStartsUpper name
          (some (BabelNode.functionDeclaration (some name) loc children))
          (by exact h2)⟩, fun h2 => by simp at h2, fun h2 => by simp at h2⟩
    · exact ih i h
  · intro id loc children ih i hi
    simp only [extractIds] at hi
    rcases List.mem_append.mp hi with h | h
    · cases id with
      | none => simp at h
      | some name =>
        simp only [List.mem_singleton] at h
        subst h
        exact ⟨fun h2 => by simp at h2, fun h2 => by simp at h2,
          fun h2 => by simp at h2⟩
    · exact ih i h
  · intro id loc children ih i hi
    simp only [extractIds] at hi
    rcases List.mem_append.mp hi with h | h
    · cases id with
      | none => simp at h
      | some name =>
        simp only [List.mem_singleton] at h
        subst h
        exact ⟨fun h2 => by simp at h2, fun h2 => by simp at h2,
          fun h2 => by simp at h2⟩
    · exact ih i h
  · intro id loc children ih i hi
    simp only [extractIds] at hi
    rcases List.mem_append.mp hi with h | h
    · cases id with
      | none => simp at h
      | some name =>
        simp only [List.mem_singleton] at h
        subst h
        exact ⟨fun h2 => by simp at h2, fun h2 => by simp at h2,
          fun h2 => by simp at h2⟩
    · exact ih i h
  · intro id loc children ih i hi
    simp only [extractIds] at hi
    rcases List.mem_append.mp hi with h | h
    · cases id with
      | none => simp at h
      | some name =>
        simp only [List.mem_singleton] at h
        subst h
        exact ⟨fun h2 => by simp at h2, fun h2 => by simp at h2,
          fun h2 => by simp at h2⟩
    · exact ih i h
  · intro d children i hi
    simp only [extractIds] at hi
    exact exportedIdsInv fp true d i hi
  · intro children ih i hi
    simp only [extractIds] at hi
    exact ih i hi
  · intro d children i hi
    simp only [extractIds] at hi
    exact exportedIdsInv fp true d i hi
  · intro children ih i hi
    simp only [extractIds] at hi
    exact ih i hi
  · intro children ih i hi
    simp only [extractIds] at hi
    exact ih i hi
  · intro children ih i hi
    simp only [extractIds] at hi
    exact ih i hi
  · intro children ih i hi
    simp only [extractIds] at hi
    exact ih i hi
  · intro i hi
    simp [extractDeclInits] at hi
  · intro id loc n t ihn iht i hi
    simp only [extractDeclInits] at hi
    rcases List.mem_append.mp hi with h | h
    · exact ihn i h
    · exact iht i h
  · intro id loc t iht i hi
    simp only [extractDeclInits] at hi
    exact iht i hi
  · intro i hi
    simp [extractIdsList] at hi
  · intro n t ihn iht i hi
    simp only [extractIdsList] at hi
    rcases List.mem_append.mp hi with h | h
    · exact ihn i h
    · exact iht i h

/-! ## Export propagation (claim C4) -/




theorem exportedPushesEqMap (fp : List Char) (ds : List Declarator) :
    exportedDeclPushes fp true ds =
      (extractDeclPushes fp ds).map (setExported true) := by
  induction ds with
  | nil => rfl
  | cons d t ih =>
    obtain ⟨id, loc, init⟩ := d
    cases id with
    | none =>
      simp only [exportedDeclPushes, extractDeclPushes, declaratorIdent]
      simp only [List.nil_append]
      exact ih
    | some name =>
      simp only [exportedDeclPushes, extractDeclPushes, declaratorIdent]
      simp only [List.map_append, List.map_cons, List.map_nil]
      rw [ih]
      rfl

theorem exportedIdsEqMap (fp : List Char) (d : BabelNode)
    (h : isExportHandledKind d = true) :
    extractExportedIds fp true d = (directIdents fp d).map (setExported true) := by
  cases d with
  | variableDeclaration decls =>
    simp only [extractExportedIds, directIdents]
    exact exportedPushesEqMap fp decls
  | functionDeclaration id loc children =>
    cases id with
    | none => rfl
    | some name => rfl
  | classDeclaration id loc children =>
    cases id with
    | none => rfl
    | some name => rfl
  | tsInterfaceDeclaration id loc children =>
    cases id with
    | none => rfl
    | some name => rfl
  | tsTypeAliasDeclaration id loc children =>
    cases id with
    | none => rfl
    | some name => rfl
  | tsEnumDeclaration id loc children => simp [isExportHandledKind] at h
  | exportNamedDeclaration decl children => simp [isExportHandledKind] at h
  | exportDefaultDeclaration decl children => simp [isExportHandledKind] at h
  | arrowFunctionExpression children => simp [isExportHandledKind] at h
  | functionExpression children => simp [isExportHandledKind] at h
  | otherNode children => simp [isExportHandledKind] at h

theorem directIdentsPrefix (fp : List Char) (d : BabelNode) :
    ∃ rest, extractIds fp d = directIdents fp d ++ rest := by
  cases d with
  | variableDeclaration decls =>
    exact ⟨extractDeclInits fp decls, rfl⟩
  | functionDeclaration id loc children =>
    cases id with
    | none => exact ⟨extractIdsList fp children, rfl⟩
    | some name => exact ⟨extractIdsList fp children, rfl⟩
  | classDeclaration id loc children =>
    cases id with
    | none => exact ⟨extractIdsList fp children, rfl⟩
    | some name => exact ⟨extractIdsList fp children, rfl⟩
  | tsInterfaceDeclaration id loc children =>
    cases id with
    | none => exact ⟨extractIdsList fp children, rfl⟩
    | some name => exact ⟨extractIdsList fp children, rfl⟩
  | tsTypeAliasDeclaration id loc children =>
    cases id with
    | none => exact ⟨extractIdsList fp children, rfl⟩
    | some name => exact ⟨extractIdsList fp children, rfl⟩
  | tsEnumDeclaration id loc children =>
    cases id with
    | none => exact ⟨extractIdsList fp children, rfl⟩
    | some name => exact ⟨extractIdsList fp children, rfl⟩
  | exportNamedDeclaration decl children =>
    cases decl with
    | none => exact ⟨extractIdsList fp children, rfl⟩
    | some d2 => exact ⟨extractExportedIds fp true d2, rfl⟩
  | exportDefaultDeclaration decl children =>
    cases decl with
    | none => exact ⟨extractIdsList fp children, rfl⟩
    | some d2 => exact ⟨extractExportedIds fp true d2, rfl⟩
  | arrowFunctionExpression children => exact ⟨extractIdsList fp children, rfl⟩
  | functionExpression children => exact ⟨extractIdsList fp children, rfl⟩
  | otherNode children => exact ⟨extractIdsList fp children, rfl⟩

theorem extractDeclPushesNotExported (fp : List Char) (ds : List Declarator) :
    ∀ i ∈ extractDeclPushes fp ds, i.isExported = false := by
  induction ds with
  | nil => simp [extractDeclPushes]
  | cons d t ih =>
    intro i hi
    simp only [extractDeclPushes] at hi
    rcases List.mem_append.mp hi with h | h
    · obtain ⟨id, loc, init⟩ := d
      cases id with
      | none => simp [declaratorIdent] at h
      | some name =>
        simp only [declaratorIdent, List.mem_singleton] at h
        subst h
        rfl
    · exact ih i h

theorem directIdentsNotExported (fp : List Char) (d : BabelNode) :
    ∀ i ∈ directIdents fp d, i.isExported = false := by
  cases d with
  | variableDeclaration decls => exact extractDeclPushesNotExported fp decls
  | functionDeclaration id loc children =>
    cases id with
    | none => simp [directIdents]
    | some name =>
      intro i hi
      simp only [directIdents, List.mem_singleton] at hi
      subst hi
      rfl
  | classDeclaration id loc children =>
    cases id with
    | none => simp [directIdents]
    | some name =>
      intro i hi
      simp only [directIdents, List.mem_singleton] at hi
      subst hi
      rfl
  | tsInterfaceDeclaration id loc children =>
    cases id with
    | none => simp [directIdents]
    | some name =>
      intro i hi
      simp only [directIdents, List.mem_singleton] at hi
      subst hi
      rfl
  | tsTypeAliasDeclaration id loc children =>
    cases id with
    | none => simp [directIdents]
    | some name =>
      intro i hi
      simp only [directIdents, List.mem_singleton] at hi
      subst hi
      rfl
  | tsEnumDeclaration id loc children =>
    cases id with
    | none => simp [directIdents]
    | some name =>
      intro i hi
      simp only [directIdents, List.mem_singleton] at hi
      subst hi
      rfl
  | exportNamedDeclaration decl children => simp [directIdents]
  | exportDefaultDeclaration decl children => simp [directIdents]
  | arrowFunctionExpression children => simp [directIdents]
  | functionExpression children => simp [directIdents]
  | otherNode children => simp [directIdents]

theorem exportFreeNotExported (fp : List Char) :
    ∀ t : BabelNode, exportFreeB t = true →
      ∀ i ∈ extractIds fp t, i.isExported = false := by
  refine extractIds.induct fp
    (fun t => exportFreeB t = true → ∀ i ∈ extractIds fp t, i.isExported = false)
    (fun l => exportFreeList l = true →
      ∀ i ∈ extractIdsList fp l, i.isExported = false)
    (fun ds => exportFreeDecls ds = true →
      ∀ i ∈ extractDeclInits fp ds, i.isExported = false)
    ?_ ?_ ?_ ?_ ?_ ?_ ?_ ?_ ?_ ?_ ?_ ?_ ?_ ?_ ?_ ?_ ?_ ?_
  · intro decls ih hfree i hi
    simp only [extractIds] at hi
    rcases List.mem_append.mp hi with h | h
    · exact extractDeclPushesNotExported fp decls i h
    · exact ih (by simpa [exportFreeB] using hfree) i h
  · intro id loc children ih hfree i hi
    simp only [extractIds] at hi
    rcases List.mem_append.mp hi with h | h
    · cases id with
      | none => simp at h
      | some name =>
        simp only [List.mem_singleton] at h
        subst h
        rfl
    · exact ih (by simpa [exportFreeB] using hfree) i h
  · intro id loc children ih hfree i hi
    simp only [extractIds] at hi
    rcases List.mem_append.mp hi with h | h
    · cases id with
      | none => simp at h
      | some name =>
        simp only [List.mem_singleton] at h
        subst h
        rfl
    · exact ih (by simpa [exportFreeB] using hfree) i h
  · intro id loc children ih hfree i hi
    simp only [extractIds] at hi
    rcases List.mem_append.mp hi with h | h
    · cases id with
      | none => simp at h
      | some name =>
        simp only [List.mem_singleton] at h
        subst h
        rfl
    · exact ih (by simpa [exportFreeB] using hfree) i h
  · intro id loc children ih hfree i hi
    simp only [extractIds] at hi
    rcases List.mem_append.mp hi with h | h
    · cases id with
      | none => simp at h
      | some name =>
        simp only [List.mem_singleton] at h
        subst h
        rfl
    · exact ih (by simpa [exportFreeB] using hfree) i h
  · intro id loc children ih hfree i hi
    simp only [extractIds] at hi
    rcases List.mem_append.mp hi with h | h
    · cases id with
      | none => simp at h
      | some name =>
        simp only [List.mem_singleton] at h
        subst h
        rfl
    · exact ih (by simpa [exportFreeB] using hfree) i h
  · intro d children hfree
    simp [exportFreeB] at hfree
  · intro children ih hfree
    simp [exportFreeB] at hfree
  · intro d children hfree
    simp [exportFreeB] at hfree
  · intro children ih hfree
    simp [exportFreeB] at hfree
  · intro children ih hfree i hi
    simp only [extractIds] at hi
    exact ih (by simpa [exportFreeB] using hfree) i hi
  · intro children ih hfree i hi
    simp only [extractIds] at hi
    exact ih (by simpa [exportFreeB] using hfree) i hi
  · intro children ih hfree i hi
    simp only [extractIds] at hi
    exact ih (by simpa [exportFreeB] using hfree) i hi
  · intro hfree i hi
    simp [extractDeclInits] at hi
  · intro id loc n t ihn iht hfree i hi
    simp only [exportFreeDecls, Bool.and_eq_true] at hfree
    simp only [extractDeclInits] at hi
    rcases List.mem_append.mp hi with h | h
    · exact ihn hfree.1 i h
    · exact iht hfree.2 i h
  · intro id loc t iht hfree i hi
    simp only [exportFreeDecls] at hfree
    simp only [extractDeclInits] at hi
    exact iht hfree i hi
  · intro hfree i hi
    simp [extractIdsList] at hi
  · intro n t ihn iht hfree i hi
    simp only [exportFreeList, Bool.and_eq_true] at hfree
    simp only [extractIdsList] at hi
    rcases List.mem_append.mp hi with h | h
    · exact ihn hfree.1 i h
    · exact iht hfree.2 i h

/-! ## Claims C4, C7, C8 -/

/-- C4, counterexample: an exported `TSEnumDeclaration` yields no
identifier at all (the export helper has no enum branch), while the
same enum outside the wrapper yields exactly one; so the claim fails
for the sixth recognized declaration kind. -/
theorem claimC4Counterexample :
    extractIds "a.ts".data
      (.exportNamedDeclaration
        (some (.tsEnumDeclaration (some "Color".data) none [])) []) = [] ∧
    (extractIds "a.ts".data
      (.tsEnumDeclaration (some "Color".data) none [])).length = 1 := by
  constructor
  · decide
  · decide

/-- C4 (amended): for the five export-handled kinds (variable,
function, class, interface, type alias — enum excluded) an export
wrapper yields exactly the declaration's own identifiers with
`isExported = true` and nothing else (no second, non-exported copy);
those direct identifiers are the unexported prefix of the plain
traversal; an exported enum yields nothing; and in an export-free tree
every identifier has `isExported = false`. -/
theorem claimC4Amended :
    (∀ (fp : List Char) (d : BabelNode) (ch : List BabelNode),
      isExportHandledKind d = true →
      extractIds fp (.exportNamedDeclaration (some d) ch) =
        (directIdents fp d).map (setExported true) ∧
      extractIds fp (.exportDefaultDeclaration (some d) ch) =
        (directIdents fp d).map (setExported true)) ∧
    (∀ (fp : List Char) (d : BabelNode),
      ∃ rest, extractIds fp d = directIdents fp d ++ rest) ∧
    (∀ (fp : List Char) (d : BabelNode), ∀ i ∈ directIdents fp d,
      i.isExported = false) ∧
    (∀ (fp : List Char) (name : List Char) (loc : Option SourceLoc)
        (ch ch2 : List BabelNode),
      extractIds fp (.exportNamedDeclaration
        (some (.tsEnumDeclaration (some name) loc ch)) ch2) = []) ∧
    (∀ (fp : List Char) (t : BabelNode), exportFreeB t = true →
      ∀ i ∈ extractIds fp t, i.isExported = false) := by
  refine ⟨?_, directIdentsPrefix, directIdentsNotExported, ?_,
    exportFreeNotExported⟩
  · intro fp d ch h
    constructor
    · simp only [extractIds]
      exact exportedIdsEqMap fp d h
    · simp only [extractIds]
      exact exportedIdsEqMap fp d h
  · intro fp name loc ch ch2
    simp only [extractIds]
    rfl

/-- Witness for C4 (amended) at an exported function declaration. -/
theorem claimC4Witness :
    extractIds "a.ts".data
      (.exportNamedDeclaration
        (some (.functionDeclaration (some "getUser".data) none [])) []) =
      (directIdents "a.ts".data
        (.functionDeclaration (some "getUser".data) none [])).map
        (setExported true) :=
  (claimC4Amended.1 "a.ts".data
    (.functionDeclaration (some "getUser".data) none []) [] (by decide)).1


/-- C7: a component-like identifier is always validated against
PascalCase whatever the configuration; the classifier never marks an
identifier whose name does not start with an uppercase letter as
component-like (on either traversal path); and a non-component
identifier is validated purely against the configured convention for
its category. -/
theorem claimC7ComponentOverride :
    (∀ (i : CodeIdentifier) (cfg : CodeConventionConfig),
      i.isReactComponent = true → getExpectedConvention i cfg = pascalCase) ∧
    (∀ (fp : List Char) (t : BabelNode), ∀ i ∈ extractIds fp t,
      startsUpper i.name = false → i.isReactComponent = false) ∧
    (∀ (fp : List Char) (b : Bool) (d : BabelNode),
      ∀ i ∈ extractExportedIds fp b d,
      startsUpper i.name = false → i.isReactComponent = false) ∧
    (∀ (i : CodeIdentifier) (cfg : CodeConventionConfig),
      i.isReactComponent = false →
      getExpectedConvention i cfg = configFor cfg i.type) := by
  refine ⟨?_, ?_, ?_, ?_⟩
  · intro i cfg h
    rw [getExpectedConvention]
    simp [h]
  · intro fp t i hi hsu
    have h1 := (extractIdsInv fp t i hi).1
    by_cases hc : i.isReactComponent = true
    · rw [(h1 hc).2] at hsu
      exact absurd hsu (by simp)
    · rw [Bool.not_eq_true] at hc
      exact hc
  · intro fp b d i hi hsu
    have h1 := (exportedIdsInv fp b d i hi).1
    by_cases hc : i.isReactComponent = true
    · rw [(h1 hc).2] at hsu
      exact absurd hsu (by simp)
    · rw [Bool.not_eq_true] at hc
      exact hc
  · intro i cfg h
    rw [getExpectedConvention]
    simp only [h, Bool.false_eq_true, if_false]
    cases i.type <;> rfl

/-- Witness for C7: the function `renderAvatar` is not component-like
and a component-like identifier is checked against PascalCase. -/
theorem claimC7Witness :
    ({ name := "renderAvatar".data, type := IdCategory.funcDecl, line := 0,
       column := 0, filePath := "a.tsx".data, isExported := false,
       isReactComponent := false } : CodeIdentifier).isReactComponent
      = false ∧
    getExpectedConvention
      ⟨"UserCard".data, IdCategory.funcDecl, 0, 0, "a.tsx".data, false, true⟩
      ⟨snakeCase, snakeCase, pascalCase, upperSnakeCase, pascalCase,
        pascalCase, pascalCase, pascalCase⟩ = pascalCase :=
  ⟨claimC7ComponentOverride.2.1 "a.tsx".data
    (.functionDeclaration (some "renderAvatar".data) none [])
    { name := "renderAvatar".data, type := IdCategory.funcDecl, line := 0,
      column := 0, filePath := "a.tsx".data, isExported := false,
      isReactComponent := false }
    (by decide) (by decide),
   claimC7ComponentOverride.1
    ⟨"UserCard".data, IdCategory.funcDecl, 0, 0, "a.tsx".data, false, true⟩
    ⟨snakeCase, snakeCase, pascalCase, upperSnakeCase, pascalCase,
      pascalCase, pascalCase, pascalCase⟩ rfl⟩

/-- C8: every classifier-emitted identifier is component-like only if
its category is variable or function; a variable-classified identifier
never has an UPPER_SNAKE_CASE name (such declarators are reclassified
constant); a constant-classified identifier has an UPPER_SNAKE_CASE
name and is never component-like; and a declarator whose name matches
the UPPER_SNAKE_CASE pattern is pushed as a constant with the
component flag forced off, even for a function-like initializer. -/
theorem claimC8ClassifierInvariant :
    (∀ (fp : List Char) (t : BabelNode), ∀ i ∈ extractIds fp t,
      (i.isReactComponent = true →
        (i.type = IdCategory.varDecl ∨ i.type = IdCategory.funcDecl)) ∧
      (i.type = IdCategory.varDecl → isConstantName i.name = false) ∧
      (i.type = IdCategory.constDecl →
        isConstantName i.name = true ∧ i.isReactComponent = false)) ∧
    (∀ (fp : List Char) (b : Bool) (name : List Char)
        (loc : Option SourceLoc) (init : Option BabelNode),
      isConstantName name = true →
      declaratorIdent fp b (.mk (some name) loc init) =
        [{ name := name, type := IdCategory.constDecl, line := locLine loc,
           column := locCol loc, filePath := fp, isExported := b,
           isReactComponent := false }]) := by
  constructor
  · intro fp t i hi
    obtain ⟨h1, h2, h3⟩ := extractIdsInv fp t i hi
    exact ⟨fun h => (h1 h).1, h2, h3⟩
  · intro fp b name loc init h
    simp [declaratorIdent, h]

/-- Witness for C8: `MAX_RETRY` with an arrow-function initializer is
pushed as a constant, not component-like. -/
theorem claimC8Witness :
    declaratorIdent "a.ts".data false
      (.mk (some "MAX_RETRY".data) none
        (some (.arrowFunctionExpression []))) =
      [{ name := "MAX_RETRY".data, type := IdCategory.constDecl, line := 0,
         column := 0, filePath := "a.ts".data, isExported := false,
         isReactComponent := false }] :=
  claimC8ClassifierInvariant.2 "a.ts".data false "MAX_RETRY".data none
    (some (.arrowFunctionExpression [])) (by decide)

/-! ## Claim C9 -/

theorem lookupBumpKey (m : List (List Char × Nat)) (k0 k : List Char) :
    (lookupKey (bumpKey m k0) k).getD 0 =
      (lookupKey m k).getD 0 + (if k0 = k then 1 else 0) := by
  induction m with
  | nil =>
    by_cases h : k0 = k <;> simp [bumpKey, lookupKey, h]
  | cons p t ih =>
    obtain ⟨k1, v⟩ := p
    simp only [bumpKey]
    by_cases h1 : k1 = k0
    · rw [if_pos h1]
      simp only [lookupKey]
      by_cases h2 : k1 = k
      · rw [if_pos h2, if_pos h2]
        rw [if_pos (h1 ▸ h2)]
        simp
      · rw [if_neg h2, if_neg h2]
        rw [if_neg (fun hk => h2 (h1 ▸ hk))]
        simp
    · rw [if_neg h1]
      simp only [lookupKey]
      by_cases h2 : k1 = k
      · rw [if_pos h2, if_pos h2]
        rw [if_neg (fun hk => h1 (h2 ▸ hk.symm))]
        simp
      · rw [if_neg h2, if_neg h2]
        exact ih

theorem validateLoopSpec (config : CodeConventionConfig) :
    ∀ (l : List CodeIdentifier)
      (acc : List CodeValidationResult × List (List Char × Nat)),
      (validateLoop config acc l).1.length =
        acc.1.length +
          l.countP (fun i => !(validateIdentifier i config).isValid) ∧
      ∀ k, (lookupKey (validateLoop config acc l).2 k).getD 0 =
        (lookupKey acc.2 k).getD 0 +
          l.countP (fun i =>
            !(validateIdentifier i config).isValid && histKey i == k) := by
  intro l
  induction l with
  | nil =>
    intro acc
    simp [validateLoop]
  | cons i t ih =>
    intro acc
    rw [validateLoop]
    by_cases h : (validateIdentifier i config).isValid = true
    · simp only [h, if_true]
      constructor
      · rw [(ih acc).1, List.countP_cons]
        simp [h]
      · intro k
        rw [(ih acc).2 k, List.countP_cons]
        simp [h]
    · rw [Bool.not_eq_true] at h
      simp only [h, Bool.false_eq_true, if_false]
      constructor
      · rw [(ih _).1, List.countP_cons]
        simp only [List.length_append, List.length_singleton, h]
        simp
        omega
      · intro k
        rw [(ih _).2 k, lookupBumpKey, List.countP_cons]
        by_cases h2 : histKey i = k
        · simp [h, h2]
          omega
        · simp [h, h2]

/-- C9, counterexample: the histogram key for a component-like
violation is the plural `'React Components'`, while the violation
message labels it `"React component"`; the claim's singular label
`"React Component"` is neither, so the histogram is not keyed by the
label appearing in the message. -/
theorem claimC9Counterexample :
    lookupKey (validateIdentifiers
      [⟨"my_card".data, IdCategory.varDecl, 1, 0, "a.tsx".data, false, true⟩]
      ⟨camelCase, camelCase, pascalCase, upperSnakeCase, pascalCase,
        pascalCase, pascalCase, pascalCase⟩).violationsByType
      "React Component".data = none ∧
    lookupKey (validateIdentifiers
      [⟨"my_card".data, IdCategory.varDecl, 1, 0, "a.tsx".data, false, true⟩]
      ⟨camelCase, camelCase, pascalCase, upperSnakeCase, pascalCase,
        pascalCase, pascalCase, pascalCase⟩).violationsByType
      "React Components".data = some 1 ∧
    (validateIdentifier
      ⟨"my_card".data, IdCategory.varDecl, 1, 0, "a.tsx".data, false, true⟩
      ⟨camelCase, camelCase, pascalCase, upperSnakeCase, pascalCase,
        pascalCase, pascalCase, pascalCase⟩).violation =
      ("React component \"my_card\" should use PascalCase").data := by
  refine ⟨by decide, by decide, by decide⟩

/-- C9 (amended): `totalChecked` is the list length, `totalViolations`
counts the invalid results, and `violationsByType` is a histogram of
the invalid results keyed by `'React Components'` for component-like
identifiers (the message says `"React component"`) and by the plain
category label otherwise. -/
theorem claimC9Amended :
    ∀ (identifiers : List CodeIdentifier) (config : CodeConventionConfig),
      (validateIdentifiers identifiers config).totalChecked =
        identifiers.length ∧
      (validateIdentifiers identifiers config).totalViolations =
        identifiers.countP
          (fun i => !(validateIdentifier i config).isValid) ∧
      (∀ k, (lookupKey
          (validateIdentifiers identifiers config).violationsByType k).getD 0 =
        identifiers.countP (fun i =>
          !(validateIdentifier i config).isValid && histKey i == k)) ∧
      (∀ i : CodeIdentifier, histKey i =
        if i.isReactComponent = true then "React Components".data
        else categoryLabel i.type) := by
  intro ids config
  have h := validateLoopSpec config ids ([], [])
  refine ⟨rfl, ?_, ?_, fun i => rfl⟩
  · show (validateLoop config ([], []) ids).1.length = _
    rw [h.1]
    simp
  · intro k
    show (lookupKey (validateLoop config ([], []) ids).2 k).getD 0 = _
    rw [h.2 k]
    simp [lookupKey]

/-- Witness for C5 at the concrete scenario: camelCase wins with the
maximal score. -/
theorem claimC5Witness :
    detectScore ["fileOne.ts".data, "fileTwo.ts".data, "file-three.ts".data]
      kebabCase ≤
    detectScore ["fileOne.ts".data, "fileTwo.ts".data, "file-three.ts".data]
      camelCase :=
  (claimC5Detect.2.2.1
    ["fileOne.ts".data, "fileTwo.ts".data, "file-three.ts".data]
    camelCase (by decide)).1 kebabCase

end Renamer
